import Mathlib

/-!
Verification development for the slam_stage 2D simulation core.

The Rust source is shallowly embedded as follows.

* f32 values are modelled by the type EFloat: exact rationals plus the IEEE
  special values (NaN and the two infinities).  Arithmetic on finite values is
  exact rational arithmetic (rounding is not modelled; every concrete value
  appearing in this development is exactly representable in f32 and every
  operation on those values is exact in f32).  Operations involving NaN and
  the infinities follow IEEE-754 semantics as implemented by Rust f32
  (division by zero produces an infinity, 0 * inf and inf - inf produce NaN,
  comparisons with NaN are false, f32::min / f32::max ignore a NaN operand).
  Signed zero is not modelled; no property in this development depends on the
  sign of a zero.
* usize values are modelled by Nat, i64 values by Int; the numeric casts
  (as u32, as i64, as usize) are modelled with their Rust saturating or
  wrapping semantics as noted at each definition.
* Fallible operations (slice indexing, integer division by zero) are modelled
  explicitly: a function that can panic returns a RunRes / Option whose
  failure constructor stands for the Rust panic.
* Loops that are not structurally terminating carry an explicit fuel
  parameter; running out of fuel is a distinguished outcome (RunRes.fuelOut)
  so that it can never be confused with a result of the program.
* The parallel phases of the source (rayon par_iter over treelets, the shared
  atomic node-id counter, the concurrent node store) are modelled by the
  sequential left-to-right schedule; node ids are allocated in that order.
  The properties proved here do not depend on the id assignment order.
  Rust sort_by_key (stable) is modelled by List.insertionSort, which is a
  stable sort; par_sort_unstable_by_key leaves the order of equal keys open
  and insertionSort realises one of the permitted orders.
-/

namespace SlamStage

/-- Outcome of running an embedded effectful computation: a Rust panic, fuel
exhaustion of the embedding (never a program outcome), or a value. -/
inductive RunRes (α : Type) where
  | panic : RunRes α
  | fuelOut : RunRes α
  | ok : α → RunRes α
deriving DecidableEq

/-- Model of an f32 value: NaN, an infinity (neg = true is negative
infinity), or an exact finite value. -/
inductive EFloat where
  | nan : EFloat
  | inf : Bool → EFloat
  | fin : ℚ → EFloat
deriving DecidableEq

namespace EFloat

/-- Negation of an f32. -/
def neg : EFloat → EFloat
  | nan => nan
  | inf b => inf (!b)
  | fin q => fin (-q)

/-- Addition of f32 values: NaN propagates, opposite infinities give NaN. -/
def add : EFloat → EFloat → EFloat
  | nan, _ => nan
  | _, nan => nan
  | inf b, inf c => if b = c then inf b else nan
  | inf b, fin _ => inf b
  | fin _, inf c => inf c
  | fin q, fin r => fin (q + r)

/-- Subtraction of f32 values. -/
def sub (x y : EFloat) : EFloat := add x (neg y)

/-- Multiplication of f32 values: NaN propagates, inf * 0 = NaN, otherwise
infinities obey the sign rule. -/
def mul : EFloat → EFloat → EFloat
  | nan, _ => nan
  | _, nan => nan
  | inf b, inf c => inf (xor b c)
  | inf b, fin q => if q = 0 then nan else inf (xor b (decide (q < 0)))
  | fin q, inf c => if q = 0 then nan else inf (xor (decide (q < 0)) c)
  | fin q, fin r => fin (q * r)

/-- Division of f32 values: NaN propagates, 0/0 and inf/inf give NaN,
x/0 for x not 0 gives an infinity, x/inf gives 0. -/
def div : EFloat → EFloat → EFloat
  | nan, _ => nan
  | _, nan => nan
  | inf _, inf _ => nan
  | inf b, fin r => inf (xor b (decide (r < 0)))
  | fin _, inf _ => fin 0
  | fin q, fin r =>
    if r = 0 then (if q = 0 then nan else inf (decide (q < 0))) else fin (q / r)

/-- Absolute value of an f32. -/
def abs : EFloat → EFloat
  | nan => nan
  | inf _ => inf false
  | fin q => fin |q|

/-- Strict less-than on f32 values; any comparison with NaN is false. -/
def flt : EFloat → EFloat → Bool
  | nan, _ => false
  | _, nan => false
  | inf b, inf c => b && !c
  | inf b, fin _ => b
  | fin _, inf c => !c
  | fin q, fin r => decide (q < r)

/-- Non-strict less-or-equal on f32 values; any comparison with NaN is
false. -/
def fle : EFloat → EFloat → Bool
  | nan, _ => false
  | _, nan => false
  | inf b, inf c => b || !c
  | inf b, fin _ => b
  | fin _, inf c => !c
  | fin q, fin r => decide (q ≤ r)

/-- Rust f32::max: if one operand is NaN the other is returned, otherwise
the larger operand. -/
def fmax : EFloat → EFloat → EFloat
  | nan, y => y
  | x, nan => x
  | x, y => if flt x y then y else x

/-- Rust f32::min: if one operand is NaN the other is returned, otherwise
the smaller operand. -/
def fmin : EFloat → EFloat → EFloat
  | nan, y => y
  | x, nan => x
  | x, y => if flt y x then y else x

/-- f32::floor. -/
def floor : EFloat → EFloat
  | nan => nan
  | inf b => inf b
  | fin q => fin (⌊q⌋ : ℤ)

/-- Truncation of a rational toward zero, used by the saturating casts. -/
def qtrunc (q : ℚ) : ℤ := if q < 0 then -⌊-q⌋ else ⌊q⌋

/-- Rust cast f32 as u32: saturating, truncates toward zero, NaN maps
to 0. -/
def toU32 : EFloat → ℕ
  | nan => 0
  | inf b => if b then 0 else 2 ^ 32 - 1
  | fin q => if q < 0 then 0 else min (qtrunc q).toNat (2 ^ 32 - 1)

/-- Rust cast f32 as i64: saturating, truncates toward zero, NaN maps
to 0. -/
def toI64 : EFloat → ℤ
  | nan => 0
  | inf b => if b then -(2 ^ 63) else 2 ^ 63 - 1
  | fin q => max (-(2 ^ 63)) (min (qtrunc q) (2 ^ 63 - 1))

end EFloat

/-- f32::EPSILON, the machine epsilon 2^-23. -/
def EPSILON : EFloat := .fin (1 / 2 ^ 23)

/-- Model of glam::Vec2: a pair of f32 values. -/
structure Vec2 where
  x : EFloat
  y : EFloat
deriving DecidableEq

namespace Vec2

/-- Componentwise addition. -/
def add (a b : Vec2) : Vec2 := ⟨a.x.add b.x, a.y.add b.y⟩

/-- Componentwise subtraction. -/
def sub (a b : Vec2) : Vec2 := ⟨a.x.sub b.x, a.y.sub b.y⟩

/-- Componentwise multiplication (glam Vec2 * Vec2). -/
def mul (a b : Vec2) : Vec2 := ⟨a.x.mul b.x, a.y.mul b.y⟩

/-- Componentwise division (glam Vec2 / Vec2). -/
def div (a b : Vec2) : Vec2 := ⟨a.x.div b.x, a.y.div b.y⟩

/-- Multiplication by an f32 scalar. -/
def smul (a : Vec2) (s : EFloat) : Vec2 := ⟨a.x.mul s, a.y.mul s⟩

/-- Division by an f32 scalar. -/
def sdiv (a : Vec2) (s : EFloat) : Vec2 := ⟨a.x.div s, a.y.div s⟩

/-- Componentwise absolute value. -/
def vabs (a : Vec2) : Vec2 := ⟨a.x.abs, a.y.abs⟩

/-- Componentwise minimum with f32::min semantics. -/
def vmin (a b : Vec2) : Vec2 := ⟨EFloat.fmin a.x b.x, EFloat.fmin a.y b.y⟩

/-- Componentwise maximum with f32::max semantics. -/
def vmax (a b : Vec2) : Vec2 := ⟨EFloat.fmax a.x b.x, EFloat.fmax a.y b.y⟩

/-- Componentwise floor. -/
def vfloor (a : Vec2) : Vec2 := ⟨a.x.floor, a.y.floor⟩

/-- glam midpoint: (self + rhs) * 0.5. -/
def midpoint (a b : Vec2) : Vec2 := (a.add b).smul (.fin (1 / 2))

/-- glam rotate: complex multiplication of self (as a rotation) with rhs. -/
def rotate (a b : Vec2) : Vec2 :=
  ⟨(a.x.mul b.x).sub (a.y.mul b.y), (a.y.mul b.x).add (a.x.mul b.y)⟩

/-- cmplt as a pair of booleans (a BVec2). -/
def cmplt (a b : Vec2) : Bool × Bool := (EFloat.flt a.x b.x, EFloat.flt a.y b.y)

/-- cmple as a pair of booleans. -/
def cmple (a b : Vec2) : Bool × Bool := (EFloat.fle a.x b.x, EFloat.fle a.y b.y)

/-- cmpge as a pair of booleans. -/
def cmpge (a b : Vec2) : Bool × Bool := (EFloat.fle b.x a.x, EFloat.fle b.y a.y)

/-- Vec2::ZERO. -/
def zero : Vec2 := ⟨.fin 0, .fin 0⟩

/-- Vec2::X. -/
def unitX : Vec2 := ⟨.fin 1, .fin 0⟩

/-- Vec2::NEG_Y. -/
def negY : Vec2 := ⟨.fin 0, .fin (-1)⟩

end Vec2

/-- BVec2::all for the boolean pairs produced by the comparisons. -/
def bvAll (p : Bool × Bool) : Bool := p.1 && p.2

/-- BVec2::any for the boolean pairs produced by the comparisons. -/
def bvAny (p : Bool × Bool) : Bool := p.1 || p.2

/-- Model of glam::USizeVec2: a pair of usize coordinates. -/
structure UVec2 where
  x : ℕ
  y : ℕ
deriving DecidableEq

namespace UVec2

/-- as_vec2: the exact embedding of the coordinates into f32 (exact for the
grid sizes considered; f32 represents integers below 2^24 exactly). -/
def as_vec2 (v : UVec2) : Vec2 := ⟨.fin v.x, .fin v.y⟩

/-- cmplt on usize vectors, as a pair of booleans. -/
def cmplt (a b : UVec2) : Bool × Bool := (decide (a.x < b.x), decide (a.y < b.y))

end UVec2

/-- Model of glam::I64Vec2. -/
structure IVec2 where
  x : ℤ
  y : ℤ
deriving DecidableEq

namespace IVec2

/-- as_usizevec2: Rust i64 as usize is a wrapping (two's complement) cast. -/
def as_usizevec2 (v : IVec2) : UVec2 :=
  ⟨(v.x % 2 ^ 64).toNat, (v.y % 2 ^ 64).toNat⟩

/-- cmplt against a constant on i64 vectors, as a pair of booleans. -/
def cmplt (a b : IVec2) : Bool × Bool := (decide (a.x < b.x), decide (a.y < b.y))

end IVec2

/-- Model of Box2D from src/sim/src/math.rs. -/
structure Box2D where
  min : Vec2
  max : Vec2
deriving DecidableEq

namespace Box2D

/-- Box2D::size. -/
def size (b : Box2D) : Vec2 := b.max.sub b.min

/-- Box2D::centroid: self.max.midpoint(self.min). -/
def centroid (b : Box2D) : Vec2 := b.max.midpoint b.min

/-- Box2D::contains: (point.cmple(max) and point.cmpge(min)).all(). -/
def contains (b : Box2D) (point : Vec2) : Bool :=
  bvAll (point.cmple b.max) && bvAll (point.cmpge b.min)

/-- Box2D::encase: componentwise union. -/
def encase (b other : Box2D) : Box2D :=
  ⟨b.min.vmin other.min, b.max.vmax other.max⟩

/-- Box2D::split_horizontal. -/
def split_horizontal (b : Box2D) : Box2D × Box2D :=
  let midpoint := b.centroid
  (⟨b.min, ⟨midpoint.x, b.max.y⟩⟩, ⟨⟨midpoint.x, b.min.y⟩, b.max⟩)

/-- Box2D::split_vertical. -/
def split_vertical (b : Box2D) : Box2D × Box2D :=
  let midpoint := b.centroid
  (⟨b.min, ⟨b.max.x, midpoint.y⟩⟩, ⟨⟨b.min.x, midpoint.y⟩, b.max⟩)

/-- Box with both corners at the origin, used by the degenerate branches of
the BVH construction. -/
def zeroBox : Box2D := ⟨Vec2.zero, Vec2.zero⟩

end Box2D

/-- Model of LineSegment from src/sim/src/math.rs; p is field .0 and q is
field .1. -/
structure LineSegment where
  p : Vec2
  q : Vec2
deriving DecidableEq

namespace LineSegment

/-- LineSegment::get_box. -/
def get_box (s : LineSegment) : Box2D := ⟨s.p.vmin s.q, s.p.vmax s.q⟩

end LineSegment

/-- Model of intersect_ray_box from src/sim/src/math.rs (slab method with
reciprocal directions and the f32::EPSILON thresholds). -/
def intersect_ray_box (pos dir : Vec2) (b : Box2D) : Option EFloat :=
  let center := (b.min.add b.max).sdiv (.fin 2)
  let half_extent := (b.max.sub b.min).sdiv (.fin 2)
  let shifted_pos := pos.sub center
  let m := Vec2.div ⟨.fin 1, .fin 1⟩ dir
  let n := m.mul shifted_pos
  let k := m.vabs.mul half_extent
  let t_n := EFloat.fmax ((n.x.neg).sub k.x) ((n.y.neg).sub k.y)
  let t_f := EFloat.fmin ((n.x.neg).add k.x) ((n.y.neg).add k.y)
  if EFloat.flt t_f t_n || EFloat.flt t_f EPSILON then none
  else if EFloat.flt t_n EPSILON then some t_f
  else if EFloat.fle EPSILON t_n then some t_n
  else none

/-- Model of intersect_ray_line_segment from src/sim/src/math.rs (2x2 linear
system; near-parallel pairs rejected by the EPSILON test on the
determinant). -/
def intersect_ray_line_segment (pos dir : Vec2) (ls : LineSegment) : Option EFloat :=
  let denom := (dir.x.mul (ls.q.y.sub ls.p.y)).sub (dir.y.mul (ls.q.x.sub ls.p.x))
  if EFloat.flt denom.abs EPSILON then none
  else
    let u_num := (dir.x.mul (pos.y.sub ls.p.y)).sub (dir.y.mul (pos.x.sub ls.p.x))
    let u := u_num.div denom
    if EFloat.fle (.fin 0) u && EFloat.fle u (.fin 1) then
      let t := (((pos.x.sub ls.p.x).mul (ls.p.y.sub ls.q.y)).sub
        ((pos.y.sub ls.p.y).mul (ls.p.x.sub ls.q.x))).div denom
      if EFloat.flt EPSILON t then some t else none
    else none

/-- Morton spread of the low 32 bits into the even bit positions of a u64
(embed_even_bits in src/sim/src/bvh.rs).  The intermediate values stay below
2^64, so Nat arithmetic coincides with u64 arithmetic here. -/
def embed_even_bits (x0 : ℕ) : ℕ :=
  let x1 := (x0 ||| (x0 <<< 16)) &&& 0x0000FFFF0000FFFF
  let x2 := (x1 ||| (x1 <<< 8)) &&& 0x00FF00FF00FF00FF
  let x3 := (x2 ||| (x2 <<< 4)) &&& 0x0F0F0F0F0F0F0F0F
  let x4 := (x3 ||| (x3 <<< 2)) &&& 0x3333333333333333
  (x4 ||| (x4 <<< 1)) &&& 0x5555555555555555

/-- morton_encode from src/sim/src/bvh.rs. -/
def morton_encode (x y : ℕ) : ℕ := embed_even_bits x ||| (embed_even_bits y <<< 1)

/-- Direction enum from src/sim/src/bvh.rs. -/
inductive Direction where
  | North | East | South | West
deriving DecidableEq

/-- MAX_PRIMS_IN_NODE from src/sim/src/bvh.rs. -/
def MAX_PRIMS_IN_NODE : ℕ := 16

/-- Model of BVHNode; node ids are the u64 values allocated by the shared
counter. -/
structure BVHNode where
  children : Option (List ℕ)
  rect : Box2D
  elements : Option (List ℕ)
deriving DecidableEq

/-- Model of the BVH: the concurrent node store is modelled as the list of
(id, node) insertions, read through mapGet. -/
structure BVH where
  box_map : List (ℕ × BVHNode)
  root : ℕ
deriving DecidableEq

/-- Lookup in the node store (DashMap::get); ids are unique so the first
match is the binding. -/
def mapGet (m : List (ℕ × BVHNode)) (k : ℕ) : Option BVHNode :=
  (m.find? (fun p => p.1 = k)).map (fun p => p.2)

/-- State threaded through BVH construction: the next node id of the shared
counter and the node store insertions so far. -/
structure BuildSt where
  next : ℕ
  map : List (ℕ × BVHNode)

/-- Rust slice::partition_point, the binary search loop of
core::slice::binary_search_by with the predicate mapped to Less/Greater.
The argument order of the probes matches the Rust implementation
(mid = left + (right - left) / 2).  The loop runs at most right - left
iterations; gas is an upper bound on that count, kept structural so that the
kernel can evaluate the function (callers pass the slice length, which
always suffices). -/
def partition_point_aux {α : Type} (pred : α → Bool) (xs : List α) (dflt : α) :
    (gas left right : ℕ) → ℕ
  | 0, left, _ => left
  | gas + 1, left, right =>
    if left < right then
      let mid := left + (right - left) / 2
      if pred (xs.getD mid dflt) then partition_point_aux pred xs dflt gas (mid + 1) right
      else partition_point_aux pred xs dflt gas left mid
    else left

/-- Rust slice::partition_point over a whole slice. -/
def partition_point {α : Type} (pred : α → Bool) (xs : List α) (dflt : α) : ℕ :=
  partition_point_aux pred xs dflt xs.length 0 xs.length

/-- Entry of the boxes working array of BVH::new: original segment index,
(normalized) bounding box, morton code. -/
abbrev BoxEntry := ℕ × Box2D × ℕ

/-- Morton code of a BoxEntry. -/
def BoxEntry.morton (e : BoxEntry) : ℕ := e.2.2

/-- Box of a BoxEntry. -/
def BoxEntry.box (e : BoxEntry) : Box2D := e.2.1

/-- Index of a BoxEntry. -/
def BoxEntry.idx (e : BoxEntry) : ℕ := e.1

/-- Default BoxEntry used to satisfy the total indexing API at positions
proved to be in bounds. -/
def dfltEntry : BoxEntry := (0, Box2D.zeroBox, 0)

/-- The treelet grouping loop of BVH::new: maximal runs of sorted morton
codes equal under the mask are turned into ranges.  Mirrors the while loop
with cursor end (here e); the loop runs ms.length + 1 - e iterations, and
gas is an upper bound on that count kept structural for kernel
evaluation. -/
def treelet_go (ms : List ℕ) (mask : ℕ) : (gas start e : ℕ) → List (ℕ × ℕ)
  | 0, _, _ => []
  | gas + 1, start, e =>
    if e ≤ ms.length then
      if e = ms.length || !(decide ((ms.getD start 0) &&& mask = (ms.getD e 0) &&& mask)) then
        (start, e) :: treelet_go ms mask gas e (e + 1)
      else
        treelet_go ms mask gas start (e + 1)
    else []

/-- The treelet ranges of a sorted morton list under the fixed mask. -/
def treelet_ranges (ms : List ℕ) (mask : ℕ) : List (ℕ × ℕ) :=
  treelet_go ms mask (ms.length + 1) 0 1

/-- Slice boxes[lo..hi] of the working array. -/
def sliceOf (boxes : List BoxEntry) (lo hi : ℕ) : List BoxEntry :=
  (boxes.drop lo).take (hi - lo)

/-- Bounding box of a list of boxes: the iterator reduce with encase of the
source, none for an empty list. -/
def reduceEncase (bs : List Box2D) : Option Box2D :=
  match bs with
  | [] => none
  | b :: rest => some (rest.foldl Box2D.encase b)

/-- The leaf branch of emit_lbvh: up to MAX_PRIMS_IN_NODE segment indices
under the bounding box of the range (a zero box for an empty range). -/
def emit_leaf (boxes : List BoxEntry) (lo hi : ℕ) (st : BuildSt) :
    ℕ × BVHNode × BuildSt :=
  let slice := sliceOf boxes lo hi
  let rect := reduceEncase (slice.map BoxEntry.box)
  (st.next,
    ⟨none, rect.getD Box2D.zeroBox, some (slice.map BoxEntry.idx)⟩,
    ⟨st.next + 1, st.map⟩)

/-- emit_lbvh from src/sim/src/bvh.rs, with the node store and the atomic id
counter threaded as explicit state.  The source recursion index runs from 24
(the number of trailing zero bits of the treelet mask) down to -1 and is
encoded here as bit = index + 1, so that the recursion is structural; bit =
0 is the index < 0 leaf case.  Children are inserted into the store, the
produced node is returned to the caller together with its freshly allocated
id. -/
def emit_lbvh (boxes : List BoxEntry) : (bit : ℕ) → (lo hi : ℕ) → BuildSt →
    ℕ × BVHNode × BuildSt
  | 0, lo, hi, st => emit_leaf boxes lo hi st
  | b + 1, lo, hi, st =>
    if hi - lo ≤ MAX_PRIMS_IN_NODE then emit_leaf boxes lo hi st
    else
      let mask : ℕ := 1 <<< b
      let firstM := (boxes.getD lo dfltEntry).morton
      let lastM := (boxes.getD (hi - 1) dfltEntry).morton
      if firstM &&& mask = lastM &&& mask then
        emit_lbvh boxes b lo hi st
      else
        let split := lo + partition_point
          (fun e => decide (e.morton &&& mask = firstM &&& mask)) (sliceOf boxes lo hi) dfltEntry
        let r1 := emit_lbvh boxes b lo split st
        let r2 := emit_lbvh boxes b split hi r1.2.2
        let rect := r1.2.1.rect.encase r2.2.1.rect
        let st3 : BuildSt := ⟨r2.2.2.next, r2.2.2.map ++ [(r1.1, r1.2.1), (r2.1, r2.2.1)]⟩
        (st3.next, ⟨some [r1.1, r2.1], rect, none⟩, ⟨st3.next + 1, st3.map⟩)

/-- Entry of the treelets working array of BVH::new: treelet root id and its
(normalized) bounding box. -/
abbrev TreeletEntry := ℕ × Box2D

/-- Default TreeletEntry for the total indexing API. -/
def dfltTreelet : TreeletEntry := (0, Box2D.zeroBox)

/-- Slice xs[lo..hi] of the treelets working array. -/
def sliceOf2 (xs : List TreeletEntry) (lo hi : ℕ) : List TreeletEntry :=
  (xs.drop lo).take (hi - lo)

/-- Stable sort of the subrange [lo, hi) of xs by a boolean key, key false
first; models Rust sort_by_key (a stable sort) on boxes[range]. -/
def sortRangeByKey (xs : List TreeletEntry) (lo hi : ℕ) (key : TreeletEntry → Bool) :
    List TreeletEntry :=
  xs.take lo ++
    List.insertionSort (fun a b => (key a : Bool) ≤ key b) (sliceOf2 xs lo hi) ++
    xs.drop hi

/-- The fan-out leaf branch of make_split_tree: the remaining treelet root
ids become the children (none when the range is empty). -/
def split_leaf (boxes : List TreeletEntry) (lo hi : ℕ) (st : BuildSt) :
    ℕ × BVHNode × List TreeletEntry × BuildSt :=
  let slice := sliceOf2 boxes lo hi
  let rect := reduceEncase (slice.map (fun e => e.2))
  let children := slice.map (fun e => e.1)
  (st.next,
    ⟨if children.isEmpty then none else some children,
      rect.getD Box2D.zeroBox, none⟩,
    boxes, ⟨st.next + 1, st.map⟩)

/-- make_split_tree from src/sim/src/bvh.rs: alternating-axis split tree over
the treelet roots, with the in-place stable sort of the subrange modelled by
rebuilding the working list.  The source depth runs from 5 down to -1 and is
encoded here as dpt = depth + 1, so that the recursion is structural; dpt =
0 is the depth < 0 fan-out case.  Returns the produced node, its id, the
updated working list and the updated build state. -/
def make_split_tree : (dpt : ℕ) → (horizontal : Bool) → (lo hi : ℕ) →
    (boxes : List TreeletEntry) → BuildSt → Box2D →
    ℕ × BVHNode × List TreeletEntry × BuildSt
  | 0, _, lo, hi, boxes, st, _ => split_leaf boxes lo hi st
  | d + 1, horizontal, lo, hi, boxes, st, bounding =>
    if hi - lo ≤ 2 then split_leaf boxes lo hi st
    else
      let fs := if horizontal then bounding.split_horizontal else bounding.split_vertical
      let first := fs.1
      let second := fs.2
      let boxes1 := sortRangeByKey boxes lo hi (fun e => !(first.contains e.2.centroid))
      let split := lo + partition_point (fun e => first.contains e.2.centroid)
        (sliceOf2 boxes1 lo hi) dfltTreelet
      let r1 := make_split_tree d (!horizontal) lo split boxes1 st first
      let r2 := make_split_tree d (!horizontal) split hi r1.2.2.1 r1.2.2.2 second
      let rect := r1.2.1.rect.encase r2.2.1.rect
      let st3 : BuildSt := ⟨r2.2.2.2.next, r2.2.2.2.map ++ [(r1.1, r1.2.1), (r2.1, r2.2.1)]⟩
      (st3.next, ⟨some [r1.1, r2.1], rect, none⟩, r2.2.2.1, ⟨st3.next + 1, st3.map⟩)

/-- One treelet of the parallel phase 2 loop of BVH::new: run emit_lbvh on
the range (the source index 24 is bit 25 in the shifted encoding), insert
the treelet root into the store and collect its id and box. -/
def treelet_step (sorted : List BoxEntry) (acc : List TreeletEntry × BuildSt)
    (r : ℕ × ℕ) : List TreeletEntry × BuildSt :=
  let e := emit_lbvh sorted 25 r.1 r.2 acc.2
  (acc.1 ++ [(e.1, e.2.1.rect)], BuildSt.mk e.2.2.next (e.2.2.map ++ [(e.1, e.2.1)]))

/-- BVH::new from src/sim/src/bvh.rs.  The empty input yields a single root
node with a zero box and neither children nor elements; otherwise the
two-phase LBVH plus split-tree construction runs, and all node boxes are
remapped from normalized coordinates back to world coordinates at the end. -/
def BVH.new (segments : List LineSegment) : BVH :=
  let boxes0 : List (ℕ × Box2D) := segments.enum.map (fun p => (p.1, p.2.get_box))
  match reduceEncase (boxes0.map (fun p => p.2)) with
  | none =>
    ⟨[(0, ⟨none, Box2D.zeroBox, none⟩)], 0⟩
  | some bounding =>
    let span := bounding.max.sub bounding.min
    let normalized : List BoxEntry := boxes0.map (fun p =>
      let nbx : Box2D := ⟨(p.2.min.sub bounding.min).div span,
                          (p.2.max.sub bounding.min).div span⟩
      let centroid := nbx.centroid.smul (.fin (2 ^ 20))
      (p.1, nbx, morton_encode centroid.x.toU32 centroid.y.toU32))
    let sorted := List.insertionSort
      (fun a b => BoxEntry.morton a ≤ BoxEntry.morton b) normalized
    let ranges := treelet_ranges (sorted.map BoxEntry.morton) 0xFFFFFFFFFF000000
    let tl := ranges.foldl (treelet_step sorted) ([], ⟨0, []⟩)
    let r := make_split_tree 6 true 0 tl.1.length tl.1 tl.2
      ⟨⟨.fin 0, .fin 0⟩, ⟨.fin 1, .fin 1⟩⟩
    let finalMap := (r.2.2.2.map ++ [(r.1, r.2.1)]).map (fun kn =>
      (kn.1, BVHNode.mk kn.2.children
        ⟨(kn.2.rect.min.mul span).add bounding.min,
         (kn.2.rect.max.mul span).add bounding.min⟩ kn.2.elements))
    ⟨finalMap, r.1⟩

/-- ObjectTag values are the u64 counter values of the flood fill. -/
abbrev ObjectTag := ℕ

/-- Scene2DError from src/sim/src/scene/mod.rs. -/
inductive Scene2DError where
  | PixelSizeMismatch : ℕ → ℕ × ℕ → Scene2DError
deriving DecidableEq

/-- Model of OccupancyMap from src/sim/src/scene/occupancy_map.rs. -/
structure OccupancyMap where
  size : UVec2
  pixels : List Bool
  objects : List (Option ObjectTag)
  boundaries : List LineSegment
  bvh : BVH
deriving DecidableEq

/-- boundary_direction from src/sim/src/scene/occupancy_map.rs: the world
segment of the given side of the given cell, in the coordinate frame with
the grid centered at the origin and Y increasing upward. -/
def boundary_direction (size node : UVec2) (d : Direction) : LineSegment :=
  let sizev := size.as_vec2
  let nodev := node.as_vec2
  let top_left : Vec2 := ⟨nodev.x.sub (sizev.x.div (.fin 2)),
                          (sizev.y.div (.fin 2)).sub nodev.y⟩
  match d with
  | .North => ⟨top_left, top_left.add Vec2.unitX⟩
  | .East => ⟨top_left.add Vec2.unitX, (top_left.add Vec2.unitX).add Vec2.negY⟩
  | .South => ⟨(top_left.add Vec2.unitX).add Vec2.negY, top_left.add Vec2.negY⟩
  | .West => ⟨top_left.add Vec2.negY, top_left⟩

/-- State of the flood fill of OccupancyMap::from_pixels: the objects array,
the visited set, the emitted boundary list and the DFS stack (tmp_nodes). -/
structure FillState where
  objects : List (Option ObjectTag)
  visited : List UVec2
  boundaries : List LineSegment
  stack : List UVec2
deriving DecidableEq

/-- Linear pixel index of a cell. -/
def cellIdx (width : ℕ) (c : UVec2) : ℕ := c.x + c.y * width

/-- The try_add closure of from_pixels.  Returns none for the Rust panic
(pixels[k] with k out of bounds); otherwise returns whether the caller must
emit a boundary segment, together with the updated state.  The write
objects[k] is in bounds whenever the read pixels[k] is, because both arrays
have the same length. -/
def try_add (pixels : List Bool) (width : ℕ) (object : ObjectTag)
    (st : FillState) (node : UVec2) : Option (Bool × FillState) :=
  let k := cellIdx width node
  if st.visited.contains node then some (false, st)
  else
    match pixels.get? k with
    | none => none
    | some px =>
      if !px then some (true, st)
      else some (false, { st with
        objects := st.objects.set k (some object),
        stack := node :: st.stack })

/-- One guarded neighbor probe of the flood fill: if the bounds guard holds,
run try_add on the neighbor and append the boundary segment of the given
side of node when try_add asks for it. -/
def neighbor_step (pixels : List Bool) (size : UVec2) (object : ObjectTag)
    (node : UVec2) (guard : Bool) (nb : UVec2) (d : Direction)
    (st : FillState) : Option FillState :=
  if guard then
    match try_add pixels size.x object st nb with
    | none => none
    | some (emit, st1) =>
      some (if emit then
        { st1 with boundaries := st1.boundaries ++ [boundary_direction size node d] }
      else st1)
  else some st

/-- One iteration of the while-let loop of from_pixels: pop a node, mark it
visited, and probe its four neighbors in the source order West, East, North,
South. -/
def fill_step (pixels : List Bool) (size : UVec2) (object : ObjectTag)
    (node : UVec2) (st : FillState) : Option FillState :=
  let st0 := { st with visited := node :: st.visited }
  match neighbor_step pixels size object node (decide (node.x > 0))
      ⟨node.x - 1, node.y⟩ .West st0 with
  | none => none
  | some st1 =>
    match neighbor_step pixels size object node (decide (node.x < size.x - 1))
        ⟨node.x + 1, node.y⟩ .East st1 with
    | none => none
    | some st2 =>
      match neighbor_step pixels size object node (decide (node.y > 0))
          ⟨node.x, node.y - 1⟩ .North st2 with
      | none => none
      | some st3 =>
        neighbor_step pixels size object node (decide (node.y < size.y - 1))
          ⟨node.x, node.y + 1⟩ .South st3

/-- The while-let loop of from_pixels, with fuel. -/
def fill_loop (pixels : List Bool) (size : UVec2) (object : ObjectTag) :
    ℕ → FillState → RunRes FillState
  | fuel, st =>
    match st.stack with
    | [] => .ok st
    | node :: rest =>
      match fuel with
      | 0 => .fuelOut
      | f + 1 =>
        match fill_step pixels size object node { st with stack := rest } with
        | none => .panic
        | some st1 => fill_loop pixels size object f st1

/-- The outer enumerate loop of from_pixels over the pixel indices: free or
already labelled pixels are skipped, every other pixel seeds a new object
tag and runs the flood fill.  Computing the seed coordinates divides by the
grid width, which panics in Rust when the width is zero. -/
def outer_loop (fuel : ℕ) (size : UVec2) (pixels : List Bool) :
    List ℕ → ℕ → FillState → RunRes (FillState × ℕ)
  | [], object_count, st => .ok (st, object_count)
  | i :: rest, object_count, st =>
    match pixels.get? i with
    | none => .panic
    | some px =>
      if !px then outer_loop fuel size pixels rest object_count st
      else
        match st.objects.get? i with
        | none => .panic
        | some (some _) => outer_loop fuel size pixels rest object_count st
        | some none =>
          if size.x = 0 then .panic
          else
            let loc : UVec2 := ⟨i % size.x, i / size.x⟩
            let st1 := { st with objects := st.objects.set i (some object_count),
                                 stack := loc :: st.stack }
            match fill_loop pixels size object_count fuel st1 with
            | .panic => .panic
            | .fuelOut => .fuelOut
            | .ok st2 => outer_loop fuel size pixels rest (object_count + 1) st2

/-- OccupancyMap::from_pixels from src/sim/src/scene/occupancy_map.rs.  The
flood fill and the BVH construction run before the size check, exactly as in
the source; the mismatch error is only produced afterwards. -/
def OccupancyMap.from_pixels (fuel : ℕ) (size : UVec2) (pixels : List Bool) :
    RunRes (Except Scene2DError OccupancyMap) :=
  let expected_count := size.x * size.y
  let pixels_len := pixels.length
  let st0 : FillState := ⟨List.replicate pixels_len none, [], [], []⟩
  match outer_loop fuel size pixels (List.range pixels_len) 0 st0 with
  | .panic => .panic
  | .fuelOut => .fuelOut
  | .ok (st, _) =>
    let bvh := BVH.new st.boundaries
    if expected_count = pixels_len then
      .ok (.ok ⟨size, pixels, st.objects, st.boundaries, bvh⟩)
    else
      .ok (.error (.PixelSizeMismatch pixels_len (size.x, size.y)))

namespace OccupancyMap

/-- OccupancyMap::is_valid_vec2. -/
def is_valid_vec2 (m : OccupancyMap) (loc : Vec2) : Bool :=
  bvAll (loc.vabs.cmplt (m.size.as_vec2.sdiv (.fin 2)))

/-- OccupancyMap::is_valid. -/
def is_valid (m : OccupancyMap) (loc : UVec2) : Bool :=
  bvAll (loc.cmplt m.size)

/-- OccupancyMap::translate: world position to cell coordinates, via the
flipped origin corner and floor; the cast to i64 saturates. -/
def translate (m : OccupancyMap) (loc : Vec2) : IVec2 :=
  let flip : Vec2 := ⟨.fin (-1), .fin 1⟩
  let origin_corner := (m.size.as_vec2.sdiv (.fin 2)).mul flip
  let v := ((origin_corner.sub loc).mul flip).vfloor
  ⟨v.x.toI64, v.y.toI64⟩

/-- OccupancyMap::get_box: world box of a cell. -/
def get_box (m : OccupancyMap) (loc : UVec2) : Box2D :=
  let flip : Vec2 := ⟨.fin (-1), .fin 1⟩
  let origin_corner := (m.size.as_vec2.sdiv (.fin 2)).mul flip
  let top_left := origin_corner.sub (loc.as_vec2.mul flip)
  let bottom_right := top_left.add ⟨.fin 1, .fin (-1)⟩
  ⟨top_left.vmin bottom_right, top_left.vmax bottom_right⟩

/-- OccupancyMap::is_occupied_vec2: out-of-bounds world positions read as
occupied, in-bounds positions read the pixel of their cell.  The slice index
is in bounds for maps whose pixel count matches their size (Rust panics
otherwise). -/
def is_occupied_vec2 (m : OccupancyMap) (loc : Vec2) : Bool :=
  if !m.is_valid_vec2 loc then true
  else
    let l := (m.translate loc).as_usizevec2
    m.pixels.getD (l.x + l.y * m.size.x) false

/-- OccupancyMap::is_occupied: out-of-range cells read as occupied.  The
slice index is in bounds for maps whose pixel count matches their size (Rust
panics otherwise). -/
def is_occupied (m : OccupancyMap) (loc : UVec2) : Bool :=
  if m.is_valid loc then m.pixels.getD (loc.x + loc.y * m.size.x) false
  else true

/-- The body of the breadth-first traversal loop of OccupancyMap::cast_rays,
with fuel: the work queue is a FIFO, node boxes are tested with
intersect_ray_box, children of hit nodes are enqueued and indexed segments
of hit leaves update the running minimum with f32::min.  The segment lookup
boundaries[i] is in bounds for BVHs built over the boundary list (Rust
panics otherwise).  Returns none when the fuel runs out. -/
def cast_rays_go (m : OccupancyMap) (pos dir : Vec2) :
    ℕ → List ℕ → EFloat → Option (Option EFloat)
  | fuel, queue, minv =>
    match queue with
    | [] =>
      some (match minv with
        | .inf false => none
        | v => some v)
    | node_id :: rest =>
      match fuel with
      | 0 => none
      | f + 1 =>
        match mapGet m.bvh.box_map node_id with
        | none => cast_rays_go m pos dir f rest minv
        | some node =>
          if (intersect_ray_box pos dir node.rect).isSome then
            let rest1 := rest ++ node.children.getD []
            let minv1 := (node.elements.getD []).foldl (fun mv i =>
              match intersect_ray_line_segment pos dir
                  (m.boundaries.getD i ⟨Vec2.zero, Vec2.zero⟩) with
              | none => mv
              | some small => EFloat.fmin mv small) minv
            cast_rays_go m pos dir f rest1 minv1
          else
            cast_rays_go m pos dir f rest minv

/-- OccupancyMap::cast_rays: traversal from the root with the running
minimum started at f32::INFINITY; the final comparison min != INFINITY is
the structural test against positive infinity (true for NaN, as in f32). -/
def cast_rays (fuel : ℕ) (m : OccupancyMap) (pos dir : Vec2) : Option (Option EFloat) :=
  cast_rays_go m pos dir fuel [m.bvh.root] (.inf false)

end OccupancyMap

/-- SceneTime from src/sim/src/scene/mod.rs (an f32 timestamp). -/
abbrev SceneTime := EFloat

/-- TimeStamped from src/sim/src/sensors/mod.rs. -/
structure TimeStamped (α : Type) where
  time : SceneTime
  state : α
deriving DecidableEq

/-- Agent2DConfig from src/sim/src/agent.rs (ignored by Lidar2D::sense). -/
structure Agent2DConfig where
  mass : EFloat
  length : EFloat
  width : EFloat
  radius_tyre : EFloat
  inertia_tyre : EFloat
  torque_range : EFloat × EFloat
  beta_range : EFloat × EFloat
deriving DecidableEq

/-- Agent2DState from src/sim/src/agent.rs. -/
structure Agent2DState where
  beta : EFloat
  velocity : EFloat
  torque : EFloat
  position : Vec2
  heading : Vec2
deriving DecidableEq

/-- Scene2DState from src/sim/src/scene/mod.rs: the immutable snapshot
handed to sensing jobs. -/
structure Scene2DState where
  time : SceneTime
  occupancy_map : OccupancyMap
deriving DecidableEq

/-- Lidar2D from src/sim/src/sensors/lidar.rs: the fixed angular sampling
pattern, as direction vectors in the agent frame. -/
structure Lidar2D where
  directions : List Vec2
deriving DecidableEq

/-- Lidar2DSensed: the world-space hit points of one scan. -/
structure Lidar2DSensed where
  points : List Vec2
deriving DecidableEq

/-- The per-direction ray cast of Lidar2D::sense: rotate the direction into
the world frame, cast, and map a hit distance to a world hit point; a miss
contributes nothing (flat_map).  Propagates fuel exhaustion of the embedded
traversal as none. -/
def sense_rays (fuel : ℕ) (m : OccupancyMap) (state : Agent2DState) :
    List Vec2 → Option (List Vec2)
  | [] => some []
  | dir :: rest =>
    let world_dir := state.heading.rotate dir
    match m.cast_rays fuel state.position world_dir with
    | none => none
    | some hit =>
      match sense_rays fuel m state rest with
      | none => none
      | some tail =>
        some (match hit with
          | none => tail
          | some i => (world_dir.smul i).add state.position :: tail)

/-- Lidar2D::sense from src/sim/src/sensors/lidar.rs: no reading when the
agent cell has a negative coordinate or reads as occupied; otherwise one
timestamped world hit point per direction that hit something.  The outer
Option is the fuel layer of the embedding; the inner Option is the sensor
result. -/
def Lidar2D.sense (l : Lidar2D) (fuel : ℕ) (_agent_config : Agent2DConfig)
    (agent_state : Agent2DState) (scene : Scene2DState) :
    Option (Option (TimeStamped Lidar2DSensed)) :=
  let loc := scene.occupancy_map.translate agent_state.position
  if bvAny (loc.cmplt ⟨0, 0⟩) then some none
  else if scene.occupancy_map.is_occupied loc.as_usizevec2 then some none
  else
    match sense_rays fuel scene.occupancy_map agent_state l.directions with
    | none => none
    | some results => some (some ⟨scene.time, ⟨results⟩⟩)

/-- Result of a non-blocking flume try_recv on the single-slot result
channel of a sensing job (src/sim/src/scene/scene_loop.rs): no value yet, a
delivered value, or the channel closed without a value (the job finished
and sent nothing). -/
inductive ChannelPoll (α : Type) where
  | empty : ChannelPoll α
  | value : α → ChannelPoll α
  | disconnected : ChannelPoll α
deriving DecidableEq

/-- State of a SensorWorker: the receiver of the in-flight job if one was
ever spawned (abstracted by what try_recv would return now), and the cached
last measurement.  The RwLocks of the source serialise access per agent; the
embedding works on the state they guard. -/
structure SensorWorkerState (α : Type) where
  worker : Option (ChannelPoll α)
  last_measurement : Option α
deriving DecidableEq

/-- SensorWorker::update_state from src/sim/src/scene/scene_loop.rs as a
transition function: the poll outcome of the current receiver decides
whether the call returns early (Empty), delivers a measurement (Ok) or falls
through (Disconnected); every fall-through path spawns exactly one new job,
whose fresh receiver (with its eventual poll outcome, an environment input)
replaces the old one.  The returned flag records whether a job was
spawned. -/
def SensorWorker.update_state {α : Type} (st : SensorWorkerState α)
    (fresh : ChannelPoll α) : SensorWorkerState α × Bool :=
  match st.worker with
  | some .empty => (st, false)
  | some (.value m) => (⟨some fresh, some m⟩, true)
  | some .disconnected => (⟨some fresh, st.last_measurement⟩, true)
  | none => (⟨some fresh, st.last_measurement⟩, true)

/-- AgentWorker from src/sim/src/scene/scene_loop.rs: one sensor worker per
agent (only the lidar is modelled, as in the source). -/
structure AgentWorkerState (α : Type) where
  lidar : SensorWorkerState α
deriving DecidableEq

/-- Agent2DMeasurements from src/sim/src/agent.rs. -/
structure Agent2DMeasurements (α : Type) where
  lidar : Option α
deriving DecidableEq

/-- Scene2DLoop state: the per-agent worker map (DashMap), as an
association list keyed by AgentId. -/
def LoopState (α : Type) := List (ℕ × AgentWorkerState α)

/-- Scene2DLoop::contains_agent. -/
def loop_contains_agent {α : Type} (st : LoopState α) (agent : ℕ) : Bool :=
  (st.find? (fun p => p.1 = agent)).isSome

/-- Scene2DLoop::insert_agent: a fresh worker (no receiver, no cached
measurement) is inserted unless the id is already registered. -/
def loop_insert_agent {α : Type} (st : LoopState α) (agent : ℕ) : LoopState α :=
  if loop_contains_agent st agent then st
  else (agent, ⟨⟨none, none⟩⟩) :: st

/-- Scene2DLoop::update_state: delegates to the sensor worker of the agent
when it is registered; returns whether the agent was found (and the spawn
flag of the worker call as environment bookkeeping). -/
def loop_update_state {α : Type} (st : LoopState α) (agent : ℕ)
    (fresh : ChannelPoll α) : LoopState α × Bool :=
  match st.find? (fun p => p.1 = agent) with
  | none => (st, false)
  | some _ =>
    (st.map (fun p =>
      if p.1 = agent then (p.1, ⟨(SensorWorker.update_state p.2.lidar fresh).1⟩) else p),
      true)

/-- Scene2DLoop::query composed with AgentWorker::query: a clone of the
cached measurement of the agent, none when the agent is not registered.
The call only reads the worker map. -/
def loop_query {α : Type} (st : LoopState α) (agent : ℕ) :
    Option (Agent2DMeasurements α) :=
  (st.find? (fun p => p.1 = agent)).map (fun p => ⟨p.2.lidar.last_measurement⟩)

/-- Operations driving a Scene2DLoop: agent registration and a per-tick
update offer with the poll outcome its receiver would produce; queries are
read-only and are modelled by the loop_query function. -/
inductive LoopOp (α : Type) where
  | ins : ℕ → LoopOp α
  | upd : ℕ → ChannelPoll α → LoopOp α
deriving DecidableEq

/-- One step of a Scene2DLoop trace. -/
def loop_step {α : Type} (st : LoopState α) : LoopOp α → LoopState α
  | .ins agent => loop_insert_agent st agent
  | .upd agent fresh => (loop_update_state st agent fresh).1

/-- A Scene2DLoop trace from the empty worker map (Scene2DLoop::default). -/
def loop_run {α : Type} (ops : List (LoopOp α)) : LoopState α :=
  ops.foldl loop_step ([] : LoopState α)

deriving instance DecidableEq for Except

/-- Reference definition written from the claim (not from the source): the
brute-force scan over the whole segment list, keeping the minimum positive
distance returned by intersect_ray_line_segment, none when no segment
yields an intersection.  The BVH-accelerated query is compared against
this. -/
def brute_force_cast (segs : List LineSegment) (pos dir : Vec2) : Option EFloat :=
  segs.foldl (fun acc s =>
    match intersect_ray_line_segment pos dir s with
    | none => acc
    | some t => some (match acc with | none => t | some m => EFloat.fmin m t)) none

/-- The four grid directions. -/
def allDirections : List Direction := [.North, .East, .South, .West]

/-- Reference definition written from the claim (not from the source): the
neighbor of an occupied cell in the given direction is the map border
(off-grid) or a free cell. -/
def neighborFreeOrBorder (size : UVec2) (pixels : List Bool) (c : UVec2)
    (d : Direction) : Bool :=
  match d with
  | .West => if c.x = 0 then true else !(pixels.getD (cellIdx size.x ⟨c.x - 1, c.y⟩) true)
  | .East => if c.x + 1 ≥ size.x then true
      else !(pixels.getD (cellIdx size.x ⟨c.x + 1, c.y⟩) true)
  | .North => if c.y = 0 then true else !(pixels.getD (cellIdx size.x ⟨c.x, c.y - 1⟩) true)
  | .South => if c.y + 1 ≥ size.y then true
      else !(pixels.getD (cellIdx size.x ⟨c.x, c.y + 1⟩) true)

/-- Reference definition written from the claim (not from the source): the
number of (occupied cell, free-or-border neighbor) adjacent pairs of a
grid. -/
def claim_pair_count (size : UVec2) (pixels : List Bool) : ℕ :=
  ((List.range (size.x * size.y)).map (fun i =>
    let c : UVec2 := ⟨i % size.x, i / size.x⟩
    if pixels.getD i false then
      (allDirections.filter (neighborFreeOrBorder size pixels c)).length
    else 0)).sum

/-- Extraction helper: the boundary list of a successful from_pixels run. -/
def boundaries_of (r : RunRes (Except Scene2DError OccupancyMap)) :
    Option (List LineSegment) :=
  match r with
  | .ok (.ok m) => some m.boundaries
  | _ => none

/-- The single boundary segment of the 1 by 2 grid with a free top cell and
an occupied bottom cell: the north side of cell (0, 1). -/
def northSeg : LineSegment := ⟨⟨.fin (-1/2), .fin 0⟩, ⟨.fin (1/2), .fin 0⟩⟩

/-- The occupancy map of that 1 by 2 grid, as from_pixels produces it. -/
def oneSegMap : OccupancyMap :=
  ⟨⟨1, 2⟩, [false, true], [none, some 0], [northSeg], BVH.new [northSeg]⟩

/-- A diagonal unit segment; seventeen copies of it share one Morton code. -/
def seg17 : LineSegment := ⟨⟨.fin 0, .fin 0⟩, ⟨.fin 1, .fin 1⟩⟩

/-- The fully free 2 by 2 occupancy map, as from_pixels produces it. -/
def freeMap2 : OccupancyMap :=
  ⟨⟨2, 2⟩, [false, false, false, false], [none, none, none, none], [], BVH.new []⟩

/-- An arbitrary agent configuration (Lidar2D::sense ignores it). -/
def cfg0 : Agent2DConfig :=
  ⟨.fin 0, .fin 0, .fin 0, .fin 0, .fin 0, (.fin 0, .fin 0), (.fin 0, .fin 0)⟩

/-- An agent standing on the left border point (-1, 0) of the 2 by 2 map,
heading along positive X. -/
def agent0 : Agent2DState := ⟨.fin 0, .fin 0, .fin 0, ⟨.fin (-1), .fin 0⟩, ⟨.fin 1, .fin 0⟩⟩

/-- Cell is inside the grid. -/
def inGrid (size : UVec2) (c : UVec2) : Prop := c.x < size.x ∧ c.y < size.y

/-- Cell reads as occupied in the pixel array. -/
def occAt (pixels : List Bool) (width : ℕ) (c : UVec2) : Prop :=
  pixels.get? (cellIdx width c) = some true

/-- Cell reads as free in the pixel array. -/
def freeAt (pixels : List Bool) (width : ℕ) (c : UVec2) : Prop :=
  pixels.get? (cellIdx width c) = some false

/-- The neighbor cell probed by the flood fill for the given side. -/
def dirNeighbor (c : UVec2) : Direction → UVec2
  | .West => ⟨c.x - 1, c.y⟩
  | .East => ⟨c.x + 1, c.y⟩
  | .North => ⟨c.x, c.y - 1⟩
  | .South => ⟨c.x, c.y + 1⟩

/-- Soundness of a boundary list: every segment is the edge of some
occupied in-grid cell toward a free in-grid 4-neighbor. -/
def BoundarySound (size : UVec2) (pixels : List Bool)
    (segs : List LineSegment) : Prop :=
  ∀ seg ∈ segs, ∃ c d, inGrid size c ∧ occAt pixels size.x c ∧
    inGrid size (dirNeighbor c d) ∧ freeAt pixels size.x (dirNeighbor c d) ∧
    seg = boundary_direction size c d

/-- The stack invariant of the flood fill: every stacked cell is occupied
and in grid. -/
def StackOk (size : UVec2) (pixels : List Bool) (st : FillState) : Prop :=
  ∀ c ∈ st.stack, inGrid size c ∧ occAt pixels size.x c

/-- A node never has both children and elements populated; nodes built over
an empty range have neither. -/
def NodeOk (n : BVHNode) : Prop :=
  ¬(n.children.isSome = true ∧ n.elements.isSome = true)

/-- The per-agent staleness invariant: if the agent has a worker entry, its
cached measurement is empty and its receiver has not got a value ready. -/
def staleP {α : Type} (st : LoopState α) (agent : ℕ) : Prop :=
  ∀ q, st.find? (fun p => decide (p.1 = agent)) = some q →
    q.2.lidar.last_measurement = none ∧
    ∀ v : α, q.2.lidar.worker ≠ some (.value v)

/-- Morton code assigned to segment i by the normalization phase of
BVH::new: the segment box is rescaled into the global bounding box and the
scaled centroid is morton-encoded.  none when the segment list is empty (no
bounding box) or i is out of range. -/
def segment_morton (segments : List LineSegment) (i : ℕ) : Option ℕ :=
  match reduceEncase ((segments.enum.map (fun p => (p.1, p.2.get_box))).map
      (fun p => p.2)) with
  | none => none
  | some bounding =>
    (segments.get? i).map (fun s =>
      let span := bounding.max.sub bounding.min
      let nbx : Box2D := ⟨(s.get_box.min.sub bounding.min).div span,
                          (s.get_box.max.sub bounding.min).div span⟩
      let centroid := nbx.centroid.smul (.fin (2 ^ 20))
      morton_encode centroid.x.toU32 centroid.y.toU32)

/-- The working range [lo, hi) of the boxes array is sorted by morton
code. -/
def MortonSortedRange (boxes : List BoxEntry) (lo hi : ℕ) : Prop :=
  ∀ i j, lo ≤ i → i ≤ j → j < hi →
    (boxes.getD i dfltEntry).morton ≤ (boxes.getD j dfltEntry).morton

/-- All morton codes of the working range [lo, hi) agree on the bits at and
above b, expressed through the quotient by 2^b. -/
def MortonAgree (boxes : List BoxEntry) (lo hi b : ℕ) : Prop :=
  ∀ i j, lo ≤ i → i < hi → lo ≤ j → j < hi →
    (boxes.getD i dfltEntry).morton / 2 ^ b = (boxes.getD j dfltEntry).morton / 2 ^ b

/-- A leaf respects the MAX_PRIMS_IN_NODE bound unless all entries of its
range carry one shared morton code. -/
def LeafOk (boxes : List BoxEntry) (n : BVHNode) : Prop :=
  ∀ l, n.elements = some l → l.length ≤ MAX_PRIMS_IN_NODE ∨
    ∃ mo, ∀ i ∈ l, ∃ e, e ∈ boxes ∧ BoxEntry.idx e = i ∧ BoxEntry.morton e = mo

/-- Every node of the store satisfies LeafOk. -/
def MapLeafOk (boxes : List BoxEntry) (m : List (ℕ × BVHNode)) : Prop :=
  ∀ p ∈ m, LeafOk boxes p.2

/-- A treelet range: within bounds, nonempty overall, and constant under
the mask. -/
def RangeOk (ms : List ℕ) (mask : ℕ) (r : ℕ × ℕ) : Prop :=
  r.2 ≤ ms.length ∧ r.1 < r.2 ∧
    ∀ i, r.1 ≤ i → i < r.2 → ms.getD i 0 &&& mask = ms.getD r.1 0 &&& mask

/-- 4-adjacency of grid cells. -/
def adjacent (b c : UVec2) : Prop :=
  (b.x = c.x ∧ (b.y = c.y + 1 ∨ c.y = b.y + 1)) ∨
  (b.y = c.y ∧ (b.x = c.x + 1 ∨ c.x = b.x + 1))

/-- 4-connectivity through occupied in-grid cells: the reflexive-transitive
closure of adjacency restricted to occupied in-grid cells. -/
inductive Conn (size : UVec2) (pixels : List Bool) : UVec2 → UVec2 → Prop where
  | refl : ∀ c, inGrid size c → occAt pixels size.x c → Conn size pixels c c
  | step : ∀ a b c, Conn size pixels a b → adjacent b c → inGrid size c →
      occAt pixels size.x c → Conn size pixels a c

/-- The object tag recorded for a cell in a fill state. -/
def objAt (w : ℕ) (st : FillState) (c : UVec2) : Option ObjectTag :=
  st.objects.getD (cellIdx w c) none

/-- The working invariant of one pop of the flood fill, relative to the
popped cell c whose neighbor probes are still in progress: the objects
array tracks the pixels array, stacked cells carry the current tag,
visited cells are tagged occupied in-grid cells, tagged cells are visited
or stacked, every visited cell other than c propagates its tag to its
occupied in-grid neighbors, equal tags mean connected, and all tags are at
most the current tag. -/
def WInv (size : UVec2) (pixels : List Bool) (τ : ℕ) (c : UVec2)
    (st : FillState) : Prop :=
  st.objects.length = pixels.length ∧
  (∀ v ∈ st.stack, inGrid size v ∧ occAt pixels size.x v ∧
    objAt size.x st v = some τ) ∧
  (∀ v ∈ st.visited, inGrid size v ∧ occAt pixels size.x v ∧
    objAt size.x st v ≠ none) ∧
  (∀ v, inGrid size v → objAt size.x st v ≠ none →
    v ∈ st.visited ∨ v ∈ st.stack) ∧
  (∀ v ∈ st.visited, v ≠ c → ∀ d, adjacent v d → inGrid size d →
    occAt pixels size.x d → objAt size.x st d = objAt size.x st v) ∧
  (∀ a b, inGrid size a → inGrid size b → objAt size.x st a ≠ none →
    objAt size.x st a = objAt size.x st b → Conn size pixels a b) ∧
  (∀ t, some t ∈ st.objects → t ≤ τ)

/-- The invariant of the flood fill between pops: as WInv but with the
neighbor-propagation property for every visited cell. -/
def FillRunInv (size : UVec2) (pixels : List Bool) (τ : ℕ)
    (st : FillState) : Prop :=
  st.objects.length = pixels.length ∧
  (∀ v ∈ st.stack, inGrid size v ∧ occAt pixels size.x v ∧
    objAt size.x st v = some τ) ∧
  (∀ v ∈ st.visited, inGrid size v ∧ occAt pixels size.x v ∧
    objAt size.x st v ≠ none) ∧
  (∀ v, inGrid size v → objAt size.x st v ≠ none →
    v ∈ st.visited ∨ v ∈ st.stack) ∧
  (∀ v ∈ st.visited, ∀ d, adjacent v d → inGrid size d →
    occAt pixels size.x d → objAt size.x st d = objAt size.x st v) ∧
  (∀ a b, inGrid size a → inGrid size b → objAt size.x st a ≠ none →
    objAt size.x st a = objAt size.x st b → Conn size pixels a b) ∧
  (∀ t, some t ∈ st.objects → t ≤ τ)

/-- The invariant of the outer enumerate loop between flood fill runs: the
stack is empty, visited cells are exactly the tagged cells, tags propagate
over occupied adjacency, equal tags mean connected, and all tags are below
the object counter. -/
def FillOuterInv (size : UVec2) (pixels : List Bool) (cnt : ℕ)
    (st : FillState) : Prop :=
  st.objects.length = pixels.length ∧ st.stack = [] ∧
  (∀ v ∈ st.visited, inGrid size v ∧ occAt pixels size.x v ∧
    objAt size.x st v ≠ none) ∧
  (∀ v, inGrid size v → objAt size.x st v ≠ none → v ∈ st.visited) ∧
  (∀ v ∈ st.visited, ∀ d, adjacent v d → inGrid size d →
    occAt pixels size.x d → objAt size.x st d = objAt size.x st v) ∧
  (∀ a b, inGrid size a → inGrid size b → objAt size.x st a ≠ none →
    objAt size.x st a = objAt size.x st b → Conn size pixels a b) ∧
  (∀ t, some t ∈ st.objects → t < cnt)

unseal Rat.add Rat.mul Rat.inv Rat.sub in
/-- C1: the BVH-accelerated ray query does not equal the brute-force scan.
The 1 by 2 grid with one occupied cell yields a single horizontal boundary
segment, so the global bounding box of BVH::new has zero height and the
normalization divides 0 by 0; every node box acquires NaN components, the
slab test rejects the root, and cast_rays returns no hit, while the
brute-force minimum over the same boundary list is the distance 1.  All
values in this computation are exactly representable in f32 and every
operation is exact, so the model trace coincides with the f32 trace. -/
theorem c1_cast_rays_neq_brute_force :
    OccupancyMap.from_pixels 20 ⟨1, 2⟩ [false, true] = .ok (.ok oneSegMap) ∧
    oneSegMap.cast_rays 10 ⟨.fin 0, .fin (-1)⟩ ⟨.fin 0, .fin 1⟩ = some none ∧
    brute_force_cast oneSegMap.boundaries ⟨.fin 0, .fin (-1)⟩ ⟨.fin 0, .fin 1⟩ =
      some (.fin 1) := by decide

unseal Rat.add Rat.mul Rat.inv Rat.sub in
/-- C3: on the 2 by 2 size with only three pixels, from_pixels panics (the
flood fill indexes pixels[3] before the size check runs), instead of
returning the PixelSizeMismatch error that the claim and the spec
promise. -/
theorem c3_from_pixels_mismatch_panics :
    OccupancyMap.from_pixels 100 ⟨2, 2⟩ [true, true, true] = .panic := by decide

unseal Rat.add Rat.mul Rat.inv Rat.sub in
/-- C2 counterexample: on the fully occupied 1 by 1 grid the claim counts
four (occupied cell, border) pairs, but from_pixels emits no boundary
segment at all, so the boundary list does not contain one segment per
(occupied cell, free-or-border neighbor) pair. -/
theorem c2_border_pairs_counterexample :
    boundaries_of (OccupancyMap.from_pixels 60 ⟨1, 1⟩ [true]) = some [] ∧
    claim_pair_count ⟨1, 1⟩ [true] = 4 := by decide

/-- C5 counterexample: the root node that BVH::new builds from the empty
segment list has neither children nor elements populated, so it is not true
that exactly one of the two fields is populated in every node. -/
theorem c5_empty_root_counterexample :
    mapGet (BVH.new []).box_map (BVH.new []).root =
      some ⟨none, Box2D.zeroBox, none⟩ := by decide

unseal Rat.add Rat.mul Rat.inv Rat.sub in
/-- C8 counterexample: seventeen identical segments all receive the same
Morton code, the bit recursion of emit_lbvh exhausts all bits without ever
splitting, and the resulting leaf holds seventeen segment indices, more
than MAX_PRIMS_IN_NODE = 16. -/
theorem c8_leaf_over_16_counterexample :
    ((BVH.new (List.replicate 17 seg17)).box_map.any (fun p =>
      match p.2.elements with
      | some l => decide (MAX_PRIMS_IN_NODE < l.length)
      | none => false)) = true := by decide

unseal Rat.add Rat.mul Rat.inv Rat.sub in
/-- C9 counterexample: the point (-1, 0) lies on the border of the fully
free 2 by 2 map, so is_occupied_vec2 reports it occupied (its validity test
is strict), yet Lidar2D::sense translates it to the in-grid free cell
(0, 1) and returns a reading rather than None. -/
theorem c9_border_sense_counterexample :
    freeMap2.is_occupied_vec2 ⟨.fin (-1), .fin 0⟩ = true ∧
    OccupancyMap.from_pixels 20 ⟨2, 2⟩ [false, false, false, false] =
      .ok (.ok freeMap2) ∧
    Lidar2D.sense ⟨[]⟩ 5 cfg0 agent0 ⟨.fin 0, freeMap2⟩ =
      some (some ⟨.fin 0, ⟨[]⟩⟩) := by decide

/-- C4: when the worker of an agent holds a receiver whose non-blocking poll
finds the channel empty (the in-flight job has not delivered a result), the
update_state call is a no-op: the cached last measurement and the whole
worker state are unchanged and no new job is spawned. -/
theorem c4_inflight_poll_noop {α : Type} (st : SensorWorkerState α)
    (fresh : ChannelPoll α) (h : st.worker = some .empty) :
    SensorWorker.update_state st fresh = (st, false) := by
  cases st with
  | mk w l => cases w with
    | none => cases h
    | some c =>
      cases c with
      | empty => rfl
      | value m => simp at h
      | disconnected => simp at h

/-- Witness for c4_inflight_poll_noop at a concrete worker state. -/
theorem c4_inflight_poll_noop_witness :
    SensorWorker.update_state (α := ℕ) ⟨some .empty, some 7⟩ .empty =
      (⟨some .empty, some 7⟩, false) :=
  c4_inflight_poll_noop ⟨some .empty, some 7⟩ .empty rfl

/-- C6 counterexample: a poll that finds the channel disconnected without a
value spawns a new job, while a poll that finds it empty does not, so the
two cases do not have the same effect on whether a job is spawned. -/
theorem c6_disconnected_vs_empty_counterexample :
    (SensorWorker.update_state (α := ℕ) ⟨some .disconnected, some 5⟩ .empty).2 = true ∧
    (SensorWorker.update_state (α := ℕ) ⟨some .empty, some 5⟩ .empty).2 = false := by
  exact ⟨rfl, rfl⟩

/-- C6 amended: both poll outcomes leave the cached measurement unchanged
and neither delivers a value, but they differ on job control: an empty poll
returns early without spawning, while a disconnected poll (the job finished
without sending, the agent having been inside an occupied cell) falls
through and spawns exactly one new job. -/
theorem c6_poll_cases_amended {α : Type} (st : SensorWorkerState α)
    (fresh : ChannelPoll α) :
    (st.worker = some .empty →
      SensorWorker.update_state st fresh = (st, false)) ∧
    (st.worker = some .disconnected →
      SensorWorker.update_state st fresh =
        (⟨some fresh, st.last_measurement⟩, true)) := by
  constructor
  · intro h
    cases st with
    | mk w l =>
      cases w with
      | none => cases h
      | some c => cases c <;> simp_all [SensorWorker.update_state]
  · intro h
    cases st with
    | mk w l =>
      cases w with
      | none => cases h
      | some c => cases c <;> simp_all [SensorWorker.update_state]

/-- Witness for c6_poll_cases_amended at a concrete worker state. -/
theorem c6_poll_cases_amended_witness :
    SensorWorker.update_state (α := ℕ) ⟨some .disconnected, some 5⟩ .empty =
      (⟨some .empty, some 5⟩, true) :=
  (c6_poll_cases_amended (α := ℕ) ⟨some .disconnected, some 5⟩ .empty).2 rfl

/-- Updating one keyed entry commutes with lookup by key. -/
theorem find_map_key {α : Type} (l : LoopState α) (agent b : ℕ)
    (g : ℕ × AgentWorkerState α → AgentWorkerState α) :
    (l.map (fun p => if p.1 = b then (p.1, g p) else p)).find?
        (fun p => decide (p.1 = agent)) =
      (l.find? (fun p => decide (p.1 = agent))).map
        (fun p => if p.1 = b then (p.1, g p) else p) := by
  induction l with
  | nil => rfl
  | cons hd tl ih =>
    simp only [List.map_cons, List.find?_cons]
    by_cases hb : hd.1 = b
    · by_cases ha : hd.1 = agent
      · have hba : b = agent := hb.symm.trans ha
        simp [hb, ha, hba, ih]
      · have hba : ¬(b = agent) := fun h => ha (hb.trans h)
        simp [hb, ha, hba, ih]
    · by_cases ha : hd.1 = agent
      · have hab : ¬(agent = b) := fun h => hb (ha.trans h)
        simp [hb, ha, hab, ih]
      · simp [hb, ha, ih]

/-- Lookup is none after an insert step exactly when it was none before and
the insert was for a different agent. -/
theorem loop_query_insert_none {α : Type} (st : LoopState α) (b agent : ℕ) :
    loop_query (loop_insert_agent st b) agent = none ↔
      (loop_query st agent = none ∧ b ≠ agent) := by
  simp only [loop_insert_agent]
  by_cases hc : loop_contains_agent st b
  · rw [if_pos hc]
    constructor
    · intro h
      refine ⟨h, fun hba => ?_⟩
      subst hba
      simp only [loop_contains_agent] at hc
      simp only [loop_query] at h
      cases hf : st.find? (fun p => decide (p.1 = b)) with
      | none => rw [hf] at hc; simp at hc
      | some p => rw [hf] at h; simp at h
    · exact fun h => h.1
  · rw [if_neg hc]
    simp only [loop_query, List.find?_cons]
    by_cases hba : b = agent
    · subst hba
      simp
    · have hba2 : (decide (b = agent)) = false := by simp [hba]
      simp [hba2, hba]

/-- Lookup after an update step: the registered set is unchanged, and the
entry of the updated agent is transformed by the sensor worker
transition. -/
theorem loop_query_update {α : Type} (st : LoopState α) (b agent : ℕ)
    (fresh : ChannelPoll α) :
    loop_query (loop_update_state st b fresh).1 agent =
      (st.find? (fun p => decide (p.1 = agent))).map (fun p =>
        if p.1 = b then ⟨(SensorWorker.update_state p.2.lidar fresh).1.last_measurement⟩
        else ⟨p.2.lidar.last_measurement⟩) := by
  simp only [loop_update_state]
  cases hf : st.find? (fun p => decide (p.1 = b)) with
  | none =>
    simp only [loop_query]
    cases hg : st.find? (fun p => decide (p.1 = agent)) with
    | none => simp
    | some q =>
      have hqb : ¬(q.1 = b) := by
        have hall := List.find?_eq_none.mp hf
        have hmem := List.mem_of_find?_eq_some hg
        have := hall q hmem
        simpa using this
      simp [hqb]
  | some p =>
    simp only [loop_query]
    rw [find_map_key]
    cases hg : st.find? (fun r => decide (r.1 = agent)) with
    | none => rfl
    | some q =>
      by_cases hqb : q.1 = b
      · simp [hqb]
      · simp [hqb]

/-- The staleness invariant survives any step whose poll outcome for this
agent is not a delivered value. -/
theorem staleP_step {α : Type} (st : LoopState α) (op : LoopOp α) (agent : ℕ)
    (hop : ∀ fresh, op = LoopOp.upd agent fresh → ∀ v : α, fresh ≠ .value v)
    (h : staleP st agent) : staleP (loop_step st op) agent := by
  cases op with
  | ins b =>
    intro q hq
    simp only [loop_step, loop_insert_agent] at hq
    by_cases hc : loop_contains_agent st b
    · rw [if_pos hc] at hq
      exact h q hq
    · rw [if_neg hc] at hq
      rw [List.find?_cons] at hq
      by_cases hba : b = agent
      · subst hba
        simp at hq
        subst hq
        exact ⟨rfl, fun v hv => by simp at hv⟩
      · have hd : (decide (((b : ℕ),
            (⟨⟨none, none⟩⟩ : AgentWorkerState α)).1 = agent)) = false := by
          simp [hba]
        rw [hd] at hq
        exact h q hq
  | upd b fresh =>
    intro q
    simp only [loop_step, loop_update_state]
    cases hf : st.find? (fun p => decide (p.1 = b)) with
    | none => exact fun hq => h q hq
    | some p =>
      dsimp only
      rw [find_map_key]
      cases hg : st.find? (fun r => decide (r.1 = agent)) with
      | none => intro hq; cases hq
      | some r =>
        intro hq
        simp only [Option.map_some', Option.some.injEq] at hq
        have hra : r.1 = agent := by
          have := List.find?_some hg
          simpa using this
        have hr := h r hg
        by_cases hrb : r.1 = b
        · rw [if_pos hrb] at hq
          subst hq
          have hba : b = agent := hrb ▸ hra
          have hfr : ∀ v : α, fresh ≠ .value v :=
            hop fresh (by rw [hba])
          constructor
          · cases hw : r.2.lidar.worker with
            | none => simp [SensorWorker.update_state, hw, hr.1]
            | some c =>
              cases c with
              | empty => simp [SensorWorker.update_state, hw, hr.1]
              | value v => exact absurd hw (hr.2 v)
              | disconnected => simp [SensorWorker.update_state, hw, hr.1]
          · intro v
            cases hw : r.2.lidar.worker with
            | none =>
              simp only [SensorWorker.update_state, hw]
              intro hx
              rcases hx with hx
              exact hfr v (by injection hx)
            | some c =>
              cases c with
              | empty =>
                simp only [SensorWorker.update_state, hw]
                rw [← hw]
                exact hr.2 v
              | value w => exact absurd hw (hr.2 w)
              | disconnected =>
                simp only [SensorWorker.update_state, hw]
                intro hx
                exact hfr v (by injection hx)
        · rw [if_neg hrb] at hq
          subst hq
          exact hr

/-- C10: over any trace of insert and update operations from the empty
scheduler, Scene2DLoop::query returns none exactly when the agent id was
never passed to insert_agent; for a registered agent it returns some
measurement record, whose lidar field stays none as long as no poll for the
agent has delivered a completed measurement.  Queries are modelled by the
pure read loop_query and appear in no transition, reflecting that the
source query only reads the worker map and mutates nothing. -/
theorem c10_query_registration {α : Type} (ops : List (LoopOp α)) (agent : ℕ)
    (hops : ∀ fresh, LoopOp.upd agent fresh ∈ ops → ∀ v : α, fresh ≠ .value v) :
    (loop_query (loop_run ops) agent = none ↔ LoopOp.ins agent ∉ ops) ∧
    (loop_query (loop_run ops) agent = none ∨
      loop_query (loop_run ops) agent = some ⟨none⟩) := by
  have key : ∀ (ops : List (LoopOp α)) (st : LoopState α),
      (∀ fresh, LoopOp.upd agent fresh ∈ ops → ∀ v : α, fresh ≠ .value v) →
      staleP st agent →
      ((loop_query (ops.foldl loop_step st) agent = none ↔
        (loop_query st agent = none ∧ LoopOp.ins agent ∉ ops)) ∧
       staleP (ops.foldl loop_step st) agent) := by
    intro ops
    induction ops with
    | nil =>
      intro st _ hst
      exact ⟨by simp, hst⟩
    | cons op rest ih =>
      intro st hh hst
      have hst2 : staleP (loop_step st op) agent :=
        staleP_step st op agent
          (fun fresh hop v => hh fresh (by rw [hop]; exact List.mem_cons_self _ _) v) hst
      have hrest := ih (loop_step st op)
        (fun fresh hm v => hh fresh (List.mem_cons_of_mem _ hm) v) hst2
      refine ⟨?_, by simpa using hrest.2⟩
      rw [List.foldl_cons, hrest.1]
      have hstep : loop_query (loop_step st op) agent = none ↔
          (loop_query st agent = none ∧ op ≠ LoopOp.ins agent) := by
        cases op with
        | ins b =>
          simp only [loop_step]
          rw [loop_query_insert_none]
          simp
        | upd b fresh =>
          simp only [loop_step]
          rw [loop_query_update]
          cases hg : st.find? (fun r => decide (r.1 = agent)) with
          | none => simp [loop_query, hg]
          | some q => simp [loop_query, hg]
      rw [hstep]
      constructor
      · rintro ⟨⟨h1, h2⟩, h3⟩
        refine ⟨h1, ?_⟩
        intro hm
        rcases List.mem_cons.mp hm with hm | hm
        · exact h2 hm.symm
        · exact h3 hm
      · rintro ⟨h1, h2⟩
        exact ⟨⟨h1, fun he => h2 (by rw [he]; exact List.mem_cons_self _ _)⟩,
          fun hm => h2 (List.mem_cons_of_mem _ hm)⟩
  have base : staleP ([] : LoopState α) agent := by
    intro q hq
    cases hq
  have hk := key ops [] hops base
  refine ⟨by simpa [loop_run, loop_query] using hk.1, ?_⟩
  have hs := hk.2
  rw [loop_run]
  simp only [loop_query]
  cases hg : (ops.foldl loop_step ([] : LoopState α)).find?
      (fun p => decide (p.1 = agent)) with
  | none => simp
  | some q =>
    right
    have := (hs q hg).1
    simp [this]

/-- Witness for c10_query_registration on a concrete two-operation trace. -/
theorem c10_query_registration_witness :
    (loop_query (loop_run [LoopOp.ins 0, LoopOp.upd 0 (.empty : ChannelPoll ℕ)]) 0 =
        none ↔ LoopOp.ins 0 ∉ [LoopOp.ins 0, LoopOp.upd 0 (.empty : ChannelPoll ℕ)]) ∧
    (loop_query (loop_run [LoopOp.ins 0, LoopOp.upd 0 (.empty : ChannelPoll ℕ)]) 0 =
        none ∨
      loop_query (loop_run [LoopOp.ins 0, LoopOp.upd 0 (.empty : ChannelPoll ℕ)]) 0 =
        some ⟨none⟩) :=
  c10_query_registration [LoopOp.ins 0, LoopOp.upd 0 .empty] 0
    (by
      intro fresh hm v
      simp only [List.mem_cons, List.not_mem_nil, or_false] at hm
      rcases hm with hm | hm
      · exact absurd hm (by simp)
      · cases hm
        simp)

/-- Every node emitted or stored by emit_lbvh is a leaf (elements only) or
an interior node (children only). -/
theorem emit_lbvh_ok (boxes : List BoxEntry) :
    ∀ (bit lo hi : ℕ) (st : BuildSt),
      (∀ kn ∈ st.map, NodeOk kn.2) →
      NodeOk (emit_lbvh boxes bit lo hi st).2.1 ∧
      (∀ kn ∈ (emit_lbvh boxes bit lo hi st).2.2.map, NodeOk kn.2) := by
  intro bit
  induction bit with
  | zero =>
    intro lo hi st h
    exact ⟨by simp [emit_lbvh, emit_leaf, NodeOk], by simpa [emit_lbvh, emit_leaf] using h⟩
  | succ b ih =>
    intro lo hi st h
    by_cases h16 : hi - lo ≤ MAX_PRIMS_IN_NODE
    · rw [emit_lbvh, if_pos h16]
      exact ⟨by simp [emit_leaf, NodeOk], by simpa [emit_leaf] using h⟩
    · rw [emit_lbvh, if_neg h16]
      by_cases hsh : (boxes.getD lo dfltEntry).morton &&& 1 <<< b =
          (boxes.getD (hi - 1) dfltEntry).morton &&& 1 <<< b
      · rw [if_pos hsh]
        exact ih lo hi st h
      · rw [if_neg hsh]
        obtain ⟨h1n, h1m⟩ := ih lo
          (lo + partition_point (fun e => decide (e.morton &&& 1 <<< b =
            (boxes.getD lo dfltEntry).morton &&& 1 <<< b)) (sliceOf boxes lo hi) dfltEntry)
          st h
        obtain ⟨h2n, h2m⟩ := ih
          (lo + partition_point (fun e => decide (e.morton &&& 1 <<< b =
            (boxes.getD lo dfltEntry).morton &&& 1 <<< b)) (sliceOf boxes lo hi) dfltEntry)
          hi _ h1m
        refine ⟨by simp [NodeOk], ?_⟩
        intro kn hkn
        simp only [List.mem_append, List.mem_cons, List.mem_singleton] at hkn
        rcases hkn with hkn | hkn | hkn
        · exact h2m kn hkn
        · rw [hkn]; exact h1n
        · simp only [List.not_mem_nil, or_false] at hkn
          rw [hkn]; exact h2n

/-- Every node emitted or stored by make_split_tree is an interior or
fan-out node (children only, possibly neither field for empty ranges). -/
theorem make_split_tree_ok :
    ∀ (dpt : ℕ) (horizontal : Bool) (lo hi : ℕ) (boxes : List TreeletEntry)
      (st : BuildSt) (bounding : Box2D),
      (∀ kn ∈ st.map, NodeOk kn.2) →
      NodeOk (make_split_tree dpt horizontal lo hi boxes st bounding).2.1 ∧
      (∀ kn ∈ (make_split_tree dpt horizontal lo hi boxes st bounding).2.2.2.map,
        NodeOk kn.2) := by
  intro dpt
  induction dpt with
  | zero =>
    intro horizontal lo hi boxes st bounding h
    refine ⟨?_, by simpa [make_split_tree, split_leaf] using h⟩
    simp only [make_split_tree, split_leaf, NodeOk]
    by_cases he : ((sliceOf2 boxes lo hi).map (fun e => e.1)).isEmpty <;> simp [he]
  | succ d ih =>
    intro horizontal lo hi boxes st bounding h
    by_cases h2 : hi - lo ≤ 2
    · rw [make_split_tree, if_pos h2]
      refine ⟨?_, by simpa [split_leaf] using h⟩
      simp only [split_leaf, NodeOk]
      by_cases he : ((sliceOf2 boxes lo hi).map (fun e => e.1)).isEmpty <;> simp [he]
    · rw [make_split_tree, if_neg h2]
      obtain ⟨h1n, h1m⟩ := ih (!horizontal) lo _ _ st _ h
      obtain ⟨h2n, h2m⟩ := ih (!horizontal) _ hi _ _ _ h1m
      refine ⟨by simp [NodeOk], ?_⟩
      intro kn hkn
      simp only [List.mem_append, List.mem_cons, List.mem_singleton] at hkn
      rcases hkn with hkn | hkn | hkn
      · exact h2m kn hkn
      · rw [hkn]; exact h1n
      · simp only [List.not_mem_nil, or_false] at hkn
        rw [hkn]; exact h2n

/-- The phase 2 fold over treelets preserves the node shape invariant. -/
theorem treelet_fold_ok (sorted : List BoxEntry) :
    ∀ (ranges : List (ℕ × ℕ)) (acc : List TreeletEntry × BuildSt),
      (∀ kn ∈ acc.2.map, NodeOk kn.2) →
      ∀ kn ∈ (ranges.foldl (treelet_step sorted) acc).2.map, NodeOk kn.2 := by
  intro ranges
  induction ranges with
  | nil => intro acc h; simpa using h
  | cons r rest ih =>
    intro acc h
    rw [List.foldl_cons]
    refine ih _ ?_
    intro kn hkn
    simp only [treelet_step, List.mem_append, List.mem_singleton] at hkn
    rcases hkn with hkn | hkn
    · exact (emit_lbvh_ok sorted 25 r.1 r.2 acc.2 h).2 kn hkn
    · rw [hkn]
      exact (emit_lbvh_ok sorted 25 r.1 r.2 acc.2 h).1

/-- C5 amended: in every BVH produced by BVH::new, no node has both
children and elements populated (interior nodes carry children only, leaves
carry elements only); the empty-input root and empty split-tree partitions
have neither field populated, refuting the exactly-one reading. -/
theorem c5_nodes_not_both_populated (segments : List LineSegment) (id : ℕ)
    (node : BVHNode) (hmem : (id, node) ∈ (BVH.new segments).box_map) :
    ¬(node.children.isSome = true ∧ node.elements.isSome = true) := by
  have main : ∀ kn ∈ (BVH.new segments).box_map, NodeOk kn.2 := by
    rw [BVH.new]
    cases hb : reduceEncase ((segments.enum.map (fun p => (p.1, p.2.get_box))).map
        (fun p => p.2)) with
    | none =>
      intro kn hkn
      simp only [List.mem_singleton] at hkn
      rw [hkn]
      simp [NodeOk]
    | some bounding =>
      intro kn hkn
      simp only [List.mem_map] at hkn
      obtain ⟨kn0, hkn0, hremap⟩ := hkn
      simp only [List.mem_append, List.mem_singleton] at hkn0
      have hok : NodeOk kn0.2 := by
        rcases hkn0 with hkn0 | hkn0
        · exact (make_split_tree_ok 6 true 0 _ _ _ _
            (treelet_fold_ok _ _ _ (by intro kn hk; cases hk))).2 kn0 hkn0
        · rw [hkn0]
          exact (make_split_tree_ok 6 true 0 _ _ _ _
            (treelet_fold_ok _ _ _ (by intro kn hk; cases hk))).1
      simp only [NodeOk] at hok ⊢
      rw [← hremap]
      simpa using hok
  exact main (id, node) hmem

unseal Rat.add Rat.mul Rat.inv Rat.sub in
/-- Witness for c5_nodes_not_both_populated at the root of a one-segment
build. -/
theorem c5_nodes_not_both_populated_witness :
    ¬((some [0] : Option (List ℕ)).isSome = true ∧ (none : Option (List ℕ)).isSome = true) :=
  c5_nodes_not_both_populated [northSeg] 1
    ⟨some [0], ⟨⟨.fin (-1/2), .nan⟩, ⟨.fin (1/2), .nan⟩⟩, none⟩ (by decide)

/-- Truncation toward zero is the identity on integers. -/
theorem qtrunc_intCast (z : ℤ) : EFloat.qtrunc ((z : ℤ) : ℚ) = z := by
  rw [EFloat.qtrunc]
  by_cases hz : ((z : ℚ) < 0)
  · rw [if_pos hz]
    rw [show (-(z : ℚ)) = ((-z : ℤ) : ℚ) by push_cast; ring]
    rw [Int.floor_intCast]
    ring
  · rw [if_neg hz]
    exact Int.floor_intCast z

/-- The saturating i64 cast of an integer-valued float is the clamp of that
integer. -/
theorem toI64_intCast (z : ℤ) :
    EFloat.toI64 (.fin ((z : ℤ) : ℚ)) = max (-(2 ^ 63)) (min z (2 ^ 63 - 1)) := by
  rw [EFloat.toI64, qtrunc_intCast]

/-- Componentwise description of translate at a finite position. -/
theorem translate_fin (m : OccupancyMap) (q r : ℚ) :
    m.translate ⟨.fin q, .fin r⟩ =
      ⟨max (-(2 ^ 63)) (min ⌊(m.size.x : ℚ) / 2 + q⌋ (2 ^ 63 - 1)),
       max (-(2 ^ 63)) (min ⌊(m.size.y : ℚ) / 2 - r⌋ (2 ^ 63 - 1))⟩ := by
  have h2 : ((2 : ℚ) ≠ 0) := by norm_num
  simp only [OccupancyMap.translate, UVec2.as_vec2, Vec2.sdiv, Vec2.mul, Vec2.sub,
    Vec2.vfloor, EFloat.div, EFloat.mul, EFloat.sub, EFloat.neg, EFloat.add,
    EFloat.floor, if_neg h2]
  rw [show ((m.size.x : ℚ) / 2 * (-1) + -q) * (-1) = (m.size.x : ℚ) / 2 + q by ring]
  rw [show ((m.size.y : ℚ) / 2 * 1 + -r) * 1 = (m.size.y : ℚ) / 2 - r by ring]
  exact congrArg₂ IVec2.mk (toI64_intCast _) (toI64_intCast _)

/-- Out-of-range cells read as occupied. -/
theorem is_occupied_out_of_range (m : OccupancyMap) (loc : UVec2)
    (h : m.size.x ≤ loc.x ∨ m.size.y ≤ loc.y) : m.is_occupied loc = true := by
  have hv : m.is_valid loc = false := by
    simp only [OccupancyMap.is_valid, UVec2.cmplt, bvAll]
    rcases h with h | h
    · simp [Nat.not_lt.mpr h]
    · simp [Nat.not_lt.mpr h]
  simp [OccupancyMap.is_occupied, hv]

/-- World positions on or beyond the half-extent boundary read as
occupied. -/
theorem is_occupied_vec2_out_of_bounds (m : OccupancyMap) (q r : ℚ)
    (h : (m.size.x : ℚ) / 2 ≤ |q| ∨ (m.size.y : ℚ) / 2 ≤ |r|) :
    m.is_occupied_vec2 ⟨.fin q, .fin r⟩ = true := by
  have h2 : ((2 : ℚ) ≠ 0) := by norm_num
  have hv : m.is_valid_vec2 ⟨.fin q, .fin r⟩ = false := by
    simp only [OccupancyMap.is_valid_vec2, UVec2.as_vec2, Vec2.sdiv, Vec2.vabs,
      Vec2.cmplt, EFloat.div, EFloat.abs, EFloat.flt, bvAll, if_neg h2]
    rcases h with h | h
    · simp [not_lt.mpr h]
    · simp [not_lt.mpr h]
  simp [OccupancyMap.is_occupied_vec2, hv]

/-- Lidar2D::sense yields no reading whenever its cell guard fires. -/
theorem sense_none_of_guard (l : Lidar2D) (fuel : ℕ) (cfg : Agent2DConfig)
    (ast : Agent2DState) (scene : Scene2DState)
    (h : bvAny ((scene.occupancy_map.translate ast.position).cmplt ⟨0, 0⟩) = true ∨
      scene.occupancy_map.is_occupied
        (scene.occupancy_map.translate ast.position).as_usizevec2 = true) :
    Lidar2D.sense l fuel cfg ast scene = some none := by
  rcases h with h | h
  · simp [Lidar2D.sense, h]
  · by_cases hb : bvAny ((scene.occupancy_map.translate ast.position).cmplt ⟨0, 0⟩) = true
    · simp [Lidar2D.sense, hb]
    · simp [Lidar2D.sense, hb, h]

/-- Lidar2D::sense yields no reading for an agent strictly outside the map.
The size bound keeps the grid dimensions in the range where the i64 clamp
of translate cannot wrap a far-outside coordinate back into the grid (and
where w/2 is exact in f32). -/
theorem sense_none_strictly_outside (m : OccupancyMap) (fuel : ℕ) (l : Lidar2D)
    (cfg : Agent2DConfig) (ast : Agent2DState) (t : SceneTime) (q r : ℚ)
    (hpos : ast.position = ⟨.fin q, .fin r⟩)
    (hx : m.size.x ≤ 2 ^ 24) (hy : m.size.y ≤ 2 ^ 24)
    (h : (m.size.x : ℚ) / 2 < |q| ∨ (m.size.y : ℚ) / 2 < |r|) :
    Lidar2D.sense l fuel cfg ast ⟨t, m⟩ = some none := by
  apply sense_none_of_guard
  have htr : (⟨t, m⟩ : Scene2DState).occupancy_map.translate ast.position =
      ⟨max (-(2 ^ 63)) (min ⌊(m.size.x : ℚ) / 2 + q⌋ (2 ^ 63 - 1)),
       max (-(2 ^ 63)) (min ⌊(m.size.y : ℚ) / 2 - r⌋ (2 ^ 63 - 1))⟩ := by
    rw [hpos]
    exact translate_fin m q r
  rw [htr]
  set fx := ⌊(m.size.x : ℚ) / 2 + q⌋ with hfx
  set fy := ⌊(m.size.y : ℚ) / 2 - r⌋ with hfy
  set vx := max (-(2 ^ 63) : ℤ) (min fx (2 ^ 63 - 1)) with hvx
  set vy := max (-(2 ^ 63) : ℤ) (min fy (2 ^ 63 - 1)) with hvy
  have hxz : (m.size.x : ℤ) ≤ 2 ^ 24 := by exact_mod_cast hx
  have hyz : (m.size.y : ℤ) ≤ 2 ^ 24 := by exact_mod_cast hy
  rcases h with h | h
  · rcases lt_abs.mp h with hq | hq
    · have hfxge : (m.size.x : ℤ) ≤ fx := by
        rw [hfx]
        exact Int.le_floor.mpr (by push_cast; linarith)
      have hvx1 : (m.size.x : ℤ) ≤ vx := by omega
      have hvx0 : (0 : ℤ) ≤ vx := by omega
      by_cases hvyneg : vy < 0
      · left
        simp [IVec2.cmplt, bvAny, hvyneg]
      · right
        apply is_occupied_out_of_range
        left
        have hmod : vx % 2 ^ 64 = vx := Int.emod_eq_of_lt hvx0 (by omega)
        simp only [IVec2.as_usizevec2, hmod]
        omega
    · have hfxlt : fx < 0 := by
        rw [hfx]
        apply Int.floor_lt.mpr
        push_cast
        linarith
      have hvxneg : vx < 0 := by omega
      left
      simp [IVec2.cmplt, bvAny, hvxneg]
  · rcases lt_abs.mp h with hr | hr
    · have hfylt : fy < 0 := by
        rw [hfy]
        apply Int.floor_lt.mpr
        push_cast
        linarith
      have hvyneg : vy < 0 := by omega
      left
      simp [IVec2.cmplt, bvAny, hvyneg]
    · have hfyge : (m.size.y : ℤ) ≤ fy := by
        rw [hfy]
        exact Int.le_floor.mpr (by push_cast; linarith)
      have hvy1 : (m.size.y : ℤ) ≤ vy := by omega
      have hvy0 : (0 : ℤ) ≤ vy := by omega
      by_cases hvxneg : vx < 0
      · left
        simp [IVec2.cmplt, bvAny, hvxneg]
      · right
        apply is_occupied_out_of_range
        right
        have hmod : vy % 2 ^ 64 = vy := Int.emod_eq_of_lt hvy0 (by omega)
        simp only [IVec2.as_usizevec2, hmod]
        omega

/-- C9 amended: out-of-range cells and out-of-half-extent world positions
read as occupied, and an agent strictly outside the map gets no lidar
reading; at an exact border point sense can still return a reading, which
is the corrected part of the claim. -/
theorem c9_out_of_bounds_queries (m : OccupancyMap) :
    (∀ loc : UVec2, m.size.x ≤ loc.x ∨ m.size.y ≤ loc.y →
      m.is_occupied loc = true) ∧
    (∀ q r : ℚ, (m.size.x : ℚ) / 2 ≤ |q| ∨ (m.size.y : ℚ) / 2 ≤ |r| →
      m.is_occupied_vec2 ⟨.fin q, .fin r⟩ = true) ∧
    (∀ (fuel : ℕ) (l : Lidar2D) (cfg : Agent2DConfig) (ast : Agent2DState)
      (t : SceneTime) (q r : ℚ),
      ast.position = ⟨.fin q, .fin r⟩ →
      m.size.x ≤ 2 ^ 24 → m.size.y ≤ 2 ^ 24 →
      ((m.size.x : ℚ) / 2 < |q| ∨ (m.size.y : ℚ) / 2 < |r|) →
      Lidar2D.sense l fuel cfg ast ⟨t, m⟩ = some none) :=
  ⟨fun loc h => is_occupied_out_of_range m loc h,
   fun q r h => is_occupied_vec2_out_of_bounds m q r h,
   fun fuel l cfg ast t q r hpos hx hy h =>
     sense_none_strictly_outside m fuel l cfg ast t q r hpos hx hy h⟩

unseal Rat.add Rat.mul Rat.inv Rat.sub in
/-- Witness for c9_out_of_bounds_queries on the free 2 by 2 map with an
agent strictly outside at (-2, 0). -/
theorem c9_out_of_bounds_queries_witness :
    freeMap2.is_occupied ⟨5, 0⟩ = true ∧
    freeMap2.is_occupied_vec2 ⟨.fin 2, .fin 0⟩ = true ∧
    Lidar2D.sense ⟨[]⟩ 5 cfg0 ⟨.fin 0, .fin 0, .fin 0, ⟨.fin (-2), .fin 0⟩,
      ⟨.fin 1, .fin 0⟩⟩ ⟨.fin 0, freeMap2⟩ = some none :=
  ⟨(c9_out_of_bounds_queries freeMap2).1 ⟨5, 0⟩ (by left; decide),
   (c9_out_of_bounds_queries freeMap2).2.1 2 0 (by left; norm_num [freeMap2]),
   (c9_out_of_bounds_queries freeMap2).2.2 5 ⟨[]⟩ cfg0 _ (.fin 0) (-2) 0 rfl
     (by decide) (by decide) (by left; norm_num [freeMap2])⟩

/-- Case analysis of a successful try_add probe: an emission request means
the probed cell is free (and the state untouched); otherwise the boundary
list is unchanged and the stack grows at most by the probed cell, which is
then occupied. -/
theorem try_add_cases (pixels : List Bool) (width : ℕ) (object : ObjectTag)
    (st : FillState) (nb : UVec2) (emit : Bool) (st1 : FillState)
    (h : try_add pixels width object st nb = some (emit, st1)) :
    (emit = true →
      pixels.get? (cellIdx width nb) = some false ∧ st1 = st) ∧
    (emit = false →
      st1.boundaries = st.boundaries ∧
      (st1.stack = st.stack ∨
        (st1.stack = nb :: st.stack ∧
          pixels.get? (cellIdx width nb) = some true))) := by
  rw [try_add] at h
  by_cases hv : st.visited.contains nb
  · rw [if_pos hv] at h
    injection h with h
    injection h with h1 h2
    subst h1
    subst h2
    exact ⟨fun hc => (by cases hc), fun _ => ⟨rfl, Or.inl rfl⟩⟩
  · rw [if_neg hv] at h
    cases hp : pixels.get? (cellIdx width nb) with
    | none => rw [hp] at h; cases h
    | some px =>
      rw [hp] at h
      cases px with
      | false =>
        simp only [Bool.not_false, if_pos] at h
        injection h with h
        injection h with h1 h2
        subst h1
        subst h2
        exact ⟨fun _ => ⟨rfl, rfl⟩, fun hc => (by cases hc)⟩
      | true =>
        simp only [Bool.not_true, Bool.false_eq_true, if_false] at h
        injection h with h
        injection h with h1 h2
        subst h1
        subst h2
        exact ⟨fun hc => (by cases hc), fun _ => ⟨rfl, Or.inr ⟨rfl, rfl⟩⟩⟩

/-- A successful neighbor probe preserves the stack invariant and boundary
soundness, provided the probed neighbor is the directional neighbor of an
occupied in-grid node and the guard certifies it is in grid. -/
theorem neighbor_step_sound (pixels : List Bool) (size : UVec2)
    (object : ObjectTag) (node : UVec2) (guard : Bool) (nb : UVec2)
    (d : Direction) (st st1 : FillState)
    (h : neighbor_step pixels size object node guard nb d st = some st1)
    (hnode : inGrid size node ∧ occAt pixels size.x node)
    (hnb : guard = true → inGrid size nb)
    (hnbeq : nb = dirNeighbor node d)
    (hsound : BoundarySound size pixels st.boundaries)
    (hstack : StackOk size pixels st) :
    BoundarySound size pixels st1.boundaries ∧ StackOk size pixels st1 := by
  rw [neighbor_step] at h
  cases guard with
  | false =>
    rw [if_neg (by simp)] at h
    injection h with h
    subst h
    exact ⟨hsound, hstack⟩
  | true =>
    rw [if_pos rfl] at h
    cases hta : try_add pixels size.x object st nb with
    | none => rw [hta] at h; cases h
    | some pr =>
      obtain ⟨emit, st2⟩ := pr
      rw [hta] at h
      injection h with h
      have hc := try_add_cases pixels size.x object st nb emit st2 hta
      cases emit with
      | true =>
        obtain ⟨hfree, hst2⟩ := hc.1 rfl
        rw [if_pos rfl] at h
        subst h
        refine ⟨?_, ?_⟩
        · intro seg hseg
          have hseg2 : seg ∈ st2.boundaries ++ [boundary_direction size node d] := hseg
          rcases List.mem_append.mp hseg2 with hm | hm
          · exact hsound seg (hst2 ▸ hm)
          · have hm2 : seg = boundary_direction size node d := List.mem_singleton.mp hm
            exact ⟨node, d, hnode.1, hnode.2, hnbeq ▸ hnb rfl, hnbeq ▸ hfree, hm2⟩
        · intro c hcmem
          exact hstack c (hst2 ▸ hcmem)
      | false =>
        obtain ⟨hbd, hstk⟩ := hc.2 rfl
        rw [if_neg (by simp)] at h
        subst h
        refine ⟨by rw [hbd]; exact hsound, ?_⟩
        intro c hcmem
        rcases hstk with hstk | ⟨hstk, hocc⟩
        · exact hstack c (hstk ▸ hcmem)
        · rw [hstk] at hcmem
          rcases List.mem_cons.mp hcmem with hcmem | hcmem
          · subst hcmem
            exact ⟨hnb rfl, hocc⟩
          · exact hstack c hcmem

/-- One pop of the flood fill preserves the stack invariant and boundary
soundness. -/
theorem fill_step_sound (pixels : List Bool) (size : UVec2) (object : ObjectTag)
    (node : UVec2) (st st1 : FillState)
    (h : fill_step pixels size object node st = some st1)
    (hnode : inGrid size node ∧ occAt pixels size.x node)
    (hsound : BoundarySound size pixels st.boundaries)
    (hstack : StackOk size pixels st) :
    BoundarySound size pixels st1.boundaries ∧ StackOk size pixels st1 := by
  have hxlt : node.x < size.x := hnode.1.1
  have hylt : node.y < size.y := hnode.1.2
  have hgW : (decide (node.x > 0)) = true → inGrid size ⟨node.x - 1, node.y⟩ := by
    intro hg
    have hg2 := of_decide_eq_true hg
    show node.x - 1 < size.x ∧ node.y < size.y
    omega
  have hgE : (decide (node.x < size.x - 1)) = true → inGrid size ⟨node.x + 1, node.y⟩ := by
    intro hg
    have hg2 := of_decide_eq_true hg
    show node.x + 1 < size.x ∧ node.y < size.y
    omega
  have hgN : (decide (node.y > 0)) = true → inGrid size ⟨node.x, node.y - 1⟩ := by
    intro hg
    have hg2 := of_decide_eq_true hg
    show node.x < size.x ∧ node.y - 1 < size.y
    omega
  have hgS : (decide (node.y < size.y - 1)) = true → inGrid size ⟨node.x, node.y + 1⟩ := by
    intro hg
    have hg2 := of_decide_eq_true hg
    show node.x < size.x ∧ node.y + 1 < size.y
    omega
  simp only [fill_step] at h
  cases h1 : neighbor_step pixels size object node (decide (node.x > 0))
      ⟨node.x - 1, node.y⟩ .West { st with visited := node :: st.visited } with
  | none => rw [h1] at h; cases h
  | some stW =>
    rw [h1] at h
    simp only [] at h
    have hW := neighbor_step_sound pixels size object node _ _ .West _ stW h1 hnode
      hgW rfl hsound hstack
    cases h2 : neighbor_step pixels size object node (decide (node.x < size.x - 1))
        ⟨node.x + 1, node.y⟩ .East stW with
    | none => rw [h2] at h; cases h
    | some stE =>
      rw [h2] at h
      simp only [] at h
      have hE := neighbor_step_sound pixels size object node _ _ .East stW stE h2 hnode
        hgE rfl hW.1 hW.2
      cases h3 : neighbor_step pixels size object node (decide (node.y > 0))
          ⟨node.x, node.y - 1⟩ .North stE with
      | none => rw [h3] at h; cases h
      | some stN =>
        rw [h3] at h
        simp only [] at h
        have hN := neighbor_step_sound pixels size object node _ _ .North stE stN h3 hnode
          hgN rfl hE.1 hE.2
        exact neighbor_step_sound pixels size object node _ _ .South stN st1 h hnode
          hgS rfl hN.1 hN.2

/-- The flood-fill loop preserves the stack invariant and boundary
soundness. -/
theorem fill_loop_sound (pixels : List Bool) (size : UVec2) (object : ObjectTag) :
    ∀ (fuel : ℕ) (st st1 : FillState),
      fill_loop pixels size object fuel st = .ok st1 →
      BoundarySound size pixels st.boundaries → StackOk size pixels st →
      BoundarySound size pixels st1.boundaries ∧ StackOk size pixels st1 := by
  intro fuel
  induction fuel with
  | zero =>
    intro st st1 h hsound hstack
    rw [fill_loop] at h
    cases hs : st.stack with
    | nil =>
      rw [hs] at h
      simp only [] at h
      injection h with h
      subst h
      exact ⟨hsound, hstack⟩
    | cons node rest =>
      rw [hs] at h
      cases h
  | succ f ih =>
    intro st st1 h hsound hstack
    rw [fill_loop] at h
    cases hs : st.stack with
    | nil =>
      rw [hs] at h
      injection h with h
      subst h
      exact ⟨hsound, hstack⟩
    | cons node rest =>
      rw [hs] at h
      simp only [] at h
      cases h2 : fill_step pixels size object node { st with stack := rest } with
      | none => rw [h2] at h; cases h
      | some st2 =>
        rw [h2] at h
        have hnode := hstack node (by rw [hs]; exact List.mem_cons_self _ _)
        have hrest : StackOk size pixels { st with stack := rest } := by
          intro c hc
          exact hstack c (by rw [hs]; exact List.mem_cons_of_mem _ hc)
        have hstep := fill_step_sound pixels size object node _ st2 h2 hnode hsound hrest
        exact ih st2 st1 h hstep.1 hstep.2

/-- The outer seeding loop preserves the stack invariant and boundary
soundness when the pixel count matches the grid size. -/
theorem outer_loop_sound (fuel : ℕ) (size : UVec2) (pixels : List Bool)
    (hlen : pixels.length = size.x * size.y) :
    ∀ (is : List ℕ) (cnt : ℕ) (st st1 : FillState) (cnt1 : ℕ),
      (∀ i ∈ is, i < pixels.length) →
      outer_loop fuel size pixels is cnt st = .ok (st1, cnt1) →
      BoundarySound size pixels st.boundaries → StackOk size pixels st →
      BoundarySound size pixels st1.boundaries ∧ StackOk size pixels st1 := by
  intro is
  induction is with
  | nil =>
    intro cnt st st1 cnt1 _ h hsound hstack
    rw [outer_loop] at h
    injection h with h
    injection h with h1 h2
    subst h1
    exact ⟨hsound, hstack⟩
  | cons i rest ih =>
    intro cnt st st1 cnt1 hbound h hsound hstack
    rw [outer_loop] at h
    cases hp : pixels.get? i with
    | none => rw [hp] at h; cases h
    | some px =>
      rw [hp] at h
      cases px with
      | false =>
        simp only [Bool.not_false, if_pos] at h
        exact ih cnt st st1 cnt1 (fun j hj => hbound j (List.mem_cons_of_mem _ hj))
          h hsound hstack
      | true =>
        simp only [Bool.not_true, Bool.false_eq_true, if_false] at h
        cases ho : st.objects.get? i with
        | none => rw [ho] at h; cases h
        | some o =>
          rw [ho] at h
          cases o with
          | some tag =>
            exact ih cnt st st1 cnt1 (fun j hj => hbound j (List.mem_cons_of_mem _ hj))
              h hsound hstack
          | none =>
            by_cases hw : size.x = 0
            · rw [if_pos hw] at h; cases h
            · rw [if_neg hw] at h
              have hw0 : 0 < size.x := Nat.pos_of_ne_zero hw
              have hi : i < pixels.length := hbound i (List.mem_cons_self _ _)
              have hloc : inGrid size ⟨i % size.x, i / size.x⟩ := by
                constructor
                · exact Nat.mod_lt i hw0
                · have : i < size.x * size.y := hlen ▸ hi
                  exact Nat.div_lt_of_lt_mul (by omega)
              have hocc : occAt pixels size.x ⟨i % size.x, i / size.x⟩ := by
                rw [occAt, cellIdx]
                have : i % size.x + i / size.x * size.x = i := Nat.mod_add_div' i size.x
                rw [this, hp]
              cases hf : fill_loop pixels size cnt fuel
                  { st with objects := st.objects.set i (some cnt),
                            stack := ⟨i % size.x, i / size.x⟩ :: st.stack } with
              | panic => rw [hf] at h; cases h
              | fuelOut => rw [hf] at h; cases h
              | ok st2 =>
                rw [hf] at h
                have hstack2 : StackOk size pixels
                    { st with objects := st.objects.set i (some cnt),
                              stack := ⟨i % size.x, i / size.x⟩ :: st.stack } := by
                  intro c hc
                  rcases List.mem_cons.mp hc with hc | hc
                  · subst hc
                    exact ⟨hloc, hocc⟩
                  · exact hstack c hc
                have hfl := fill_loop_sound pixels size cnt fuel _ st2 hf hsound hstack2
                exact ih (cnt + 1) st2 st1 cnt1
                  (fun j hj => hbound j (List.mem_cons_of_mem _ hj)) h hfl.1 hfl.2

/-- C2 amended: every boundary segment that a successful from_pixels run
emits is the edge between an occupied in-grid cell and a free in-grid
4-neighbor of it; in particular adjacency to the map border emits
nothing.  (The same pair can emit more than once, because a cell can be
re-pushed before it is first visited.) -/
theorem c2_boundary_soundness (fuel : ℕ) (size : UVec2) (pixels : List Bool)
    (m : OccupancyMap)
    (hrun : OccupancyMap.from_pixels fuel size pixels = .ok (.ok m)) :
    ∀ seg ∈ m.boundaries, ∃ c d, inGrid size c ∧ occAt pixels size.x c ∧
      inGrid size (dirNeighbor c d) ∧ freeAt pixels size.x (dirNeighbor c d) ∧
      seg = boundary_direction size c d := by
  simp only [OccupancyMap.from_pixels] at hrun
  cases ho : outer_loop fuel size pixels (List.range pixels.length) 0
      ⟨List.replicate pixels.length none, [], [], []⟩ with
  | panic => rw [ho] at hrun; cases hrun
  | fuelOut => rw [ho] at hrun; cases hrun
  | ok pr =>
    obtain ⟨st, cnt⟩ := pr
    rw [ho] at hrun
    simp only [] at hrun
    by_cases hsz : size.x * size.y = pixels.length
    · rw [if_pos hsz] at hrun
      injection hrun with hrun
      injection hrun with hrun
      have hsound := outer_loop_sound fuel size pixels hsz.symm
        (List.range pixels.length) 0 ⟨List.replicate pixels.length none, [], [], []⟩
        st cnt (fun i hi => List.mem_range.mp hi) ho
        (fun seg hseg => by cases hseg) (fun c hc => by cases hc)
      intro seg hseg
      have hb : m.boundaries = st.boundaries := by rw [← hrun]
      exact hsound.1 seg (hb ▸ hseg)
    · rw [if_neg hsz] at hrun
      injection hrun with hrun
      cases hrun

unseal Rat.add Rat.mul Rat.inv Rat.sub in
/-- Witness for c2_boundary_soundness on the 1 by 2 grid whose single
boundary segment separates the occupied cell (0, 1) from the free cell
(0, 0) above it. -/
theorem c2_boundary_soundness_witness :
    ∃ c d, inGrid ⟨1, 2⟩ c ∧ occAt [false, true] 1 c ∧
      inGrid ⟨1, 2⟩ (dirNeighbor c d) ∧ freeAt [false, true] 1 (dirNeighbor c d) ∧
      northSeg = boundary_direction ⟨1, 2⟩ c d :=
  c2_boundary_soundness 20 ⟨1, 2⟩ [false, true] oneSegMap (by decide) northSeg
    (by decide)

/-- The bisection of partition_point_aux returns the boundary of a
prefix-true predicate. -/
theorem partition_point_aux_boundary {α : Type} (pred : α → Bool) (xs : List α)
    (dflt : α) (K : ℕ)
    (hK : ∀ t, t < xs.length → (pred (xs.getD t dflt) = true ↔ t < K)) :
    ∀ (gas left right : ℕ), left ≤ K → K ≤ right → right ≤ xs.length →
      right - left ≤ gas →
      partition_point_aux pred xs dflt gas left right = K := by
  intro gas
  induction gas with
  | zero =>
    intro left right h1 h2 h3 h4
    rw [partition_point_aux]
    omega
  | succ g ih =>
    intro left right h1 h2 h3 h4
    rw [partition_point_aux]
    by_cases hlr : left < right
    · rw [if_pos hlr]
      have hmid : left + (right - left) / 2 < xs.length := by omega
      by_cases hp : pred (xs.getD (left + (right - left) / 2) dflt) = true
      · rw [if_pos hp]
        have := (hK _ hmid).mp hp
        exact ih (left + (right - left) / 2 + 1) right (by omega) h2 h3 (by omega)
      · rw [if_neg hp]
        have : ¬(left + (right - left) / 2 < K) := fun hc => hp ((hK _ hmid).mpr hc)
        exact ih left (left + (right - left) / 2) h1 (by omega) (by omega) (by omega)
    · rw [if_neg hlr]
      omega

/-- Indexing into a slice is indexing into the underlying list. -/
theorem sliceOf_get? (boxes : List BoxEntry) (lo hi t : ℕ) (ht : t < hi - lo) :
    (sliceOf boxes lo hi).get? t = boxes.get? (lo + t) := by
  rw [sliceOf, List.get?_take ht, List.get?_drop]

/-- Length of a slice. -/
theorem sliceOf_length (boxes : List BoxEntry) (lo hi : ℕ) (hhi : hi ≤ boxes.length) :
    (sliceOf boxes lo hi).length = hi - lo := by
  rw [sliceOf, List.length_take, List.length_drop]
  omega

/-- Membership of slice elements in the underlying list. -/
theorem sliceOf_subset (boxes : List BoxEntry) (lo hi : ℕ) :
    ∀ e ∈ sliceOf boxes lo hi, e ∈ boxes := by
  intro e he
  exact List.mem_of_mem_drop (List.mem_of_mem_take he)

/-- The division view of a single morton bit: the quotient by 2^b splits
into the quotient by 2^(b+1) and the bit. -/
theorem div_pow_succ_eq (m b : ℕ) :
    m / 2 ^ b = 2 * (m / 2 ^ (b + 1)) + m / 2 ^ b % 2 := by
  have h1 : m / 2 ^ b / 2 = m / 2 ^ (b + 1) := by
    rw [Nat.div_div_eq_div_mul, pow_succ]
  omega

/-- Two numbers that agree above bit b and at bit b agree above b - in the
quotient sense. -/
theorem div_pow_eq_of_between (a m c : ℕ) (b : ℕ)
    (hac : a / 2 ^ (b + 1) = c / 2 ^ (b + 1))
    (hbit : a / 2 ^ b % 2 = c / 2 ^ b % 2)
    (h1 : a ≤ m) (h2 : m ≤ c) :
    m / 2 ^ b = a / 2 ^ b ∧ m / 2 ^ (b + 1) = a / 2 ^ (b + 1) := by
  have hda : a / 2 ^ b ≤ m / 2 ^ b := Nat.div_le_div_right h1
  have hdc : m / 2 ^ b ≤ c / 2 ^ b := Nat.div_le_div_right h2
  have hea := div_pow_succ_eq a b
  have hem := div_pow_succ_eq m b
  have hec := div_pow_succ_eq c b
  have hgoal : m / 2 ^ b = a / 2 ^ b := by omega
  refine ⟨hgoal, ?_⟩
  have h3 := div_pow_succ_eq a b
  have h4 := div_pow_succ_eq m b
  omega

/-- The treelet mask keeps exactly the bits at and above 24, so equality
under the mask is equality of the quotients by 2^24 (for 64-bit values). -/
theorem and_mask_div_eq (m m' : ℕ) (hm : m < 2 ^ 64) (hm' : m' < 2 ^ 64)
    (h : m &&& 0xFFFFFFFFFF000000 = m' &&& 0xFFFFFFFFFF000000) :
    m / 2 ^ 24 = m' / 2 ^ 24 := by
  have hmask : (0xFFFFFFFFFF000000 : ℕ) = (2 ^ 40 - 1) <<< 24 := by
    rw [Nat.shiftLeft_eq]; norm_num
  apply Nat.eq_of_testBit_eq
  intro i
  rw [← Nat.shiftRight_eq_div_pow, ← Nat.shiftRight_eq_div_pow,
      Nat.testBit_shiftRight, Nat.testBit_shiftRight]
  by_cases hi : i < 40
  · have h1 := congrArg (fun z => z.testBit (24 + i)) h
    simp only [Nat.testBit_and, hmask, Nat.testBit_shiftLeft,
      Nat.testBit_two_pow_sub_one] at h1
    have e1 : (decide (24 ≤ 24 + i)) = true := by simp
    have e2 : (decide (24 + i - 24 < 40)) = true := by simp [hi]
    rw [e1, e2] at h1
    simpa using h1
  · have h64 : (2:ℕ) ^ 64 ≤ 2 ^ (24 + i) := Nat.pow_le_pow_right (by norm_num) (by omega)
    rw [Nat.testBit_lt_two_pow (lt_of_lt_of_le hm h64),
        Nat.testBit_lt_two_pow (lt_of_lt_of_le hm' h64)]

/-- Equality of two numbers under a single-bit mask is equality of that
bit. -/
theorem bit_eq_of_and_two_pow_eq (a c b : ℕ) (h : a &&& 2 ^ b = c &&& 2 ^ b) :
    a / 2 ^ b % 2 = c / 2 ^ b % 2 := by
  rw [Nat.and_two_pow, Nat.and_two_pow] at h
  have hpow : 0 < 2 ^ b := Nat.pos_pow_of_pos b (by norm_num)
  have ht : (a.testBit b).toNat = (c.testBit b).toNat := Nat.eq_of_mul_eq_mul_right hpow h
  rw [Nat.testBit_to_div_mod, Nat.testBit_to_div_mod] at ht
  have h1 := Nat.mod_two_eq_zero_or_one (a / 2 ^ b)
  have h2 := Nat.mod_two_eq_zero_or_one (c / 2 ^ b)
  rcases h1 with h1 | h1 <;> rcases h2 with h2 | h2 <;> simp [h1, h2] at ht ⊢

/-- Conversely, equal bits give equal single-bit masks. -/
theorem and_two_pow_eq_of_bit_eq (a c b : ℕ) (h : a / 2 ^ b % 2 = c / 2 ^ b % 2) :
    a &&& 2 ^ b = c &&& 2 ^ b := by
  rw [Nat.and_two_pow, Nat.and_two_pow, Nat.testBit_to_div_mod, Nat.testBit_to_div_mod, h]

/-- Morton codes are 64-bit values: both interleavings are masked to the
even (respectively odd) bit positions below 64. -/
theorem morton_encode_lt (x y : ℕ) : morton_encode x y < 2 ^ 64 := by
  have h1 : embed_even_bits x ≤ 0x5555555555555555 := Nat.and_le_right
  have h2 : embed_even_bits y ≤ 0x5555555555555555 := Nat.and_le_right
  have h3 : embed_even_bits x < 2 ^ 64 := by omega
  have h4 : embed_even_bits y <<< 1 < 2 ^ 64 := by
    rw [Nat.shiftLeft_eq]
    omega
  exact Nat.or_lt_two_pow h3 h4

/-- Every monotonically false-stabilizing predicate over a list has a
boundary index. -/
theorem exists_boundary {α : Type} (pred : α → Bool) (xs : List α) (dflt : α)
    (hmono : ∀ t u, t ≤ u → u < xs.length →
      pred (xs.getD u dflt) = true → pred (xs.getD t dflt) = true) :
    ∃ K, K ≤ xs.length ∧ ∀ t, t < xs.length →
      (pred (xs.getD t dflt) = true ↔ t < K) := by
  by_cases hall : ∀ t, t < xs.length → pred (xs.getD t dflt) = true
  · exact ⟨xs.length, le_refl _, fun t ht => ⟨fun _ => ht, fun _ => hall t ht⟩⟩
  · push_neg at hall
    obtain ⟨t0, ht0, hf0⟩ := hall
    classical
    have hex : ∃ t, t < xs.length ∧ pred (xs.getD t dflt) = false := by
      exact ⟨t0, ht0, by simpa using hf0⟩
    obtain ⟨hK1, hK2⟩ := Nat.find_spec hex
    refine ⟨Nat.find hex, by omega, ?_⟩
    intro t ht
    constructor
    · intro hp
      by_contra hc
      have hKt : Nat.find hex ≤ t := by omega
      have hmt := hmono (Nat.find hex) t hKt ht hp
      rw [hmt] at hK2
      exact Bool.noConfusion hK2
    · intro htK
      have hnot := Nat.find_min hex htK
      rw [not_and] at hnot
      have h2 := hnot ht
      cases hpt : pred (xs.getD t dflt) with
      | false => exact absurd hpt h2
      | true => rfl

/-- Indexing with default into a slice is indexing into the underlying
list. -/
theorem sliceOf_getD (boxes : List BoxEntry) (lo hi t : ℕ) (d : BoxEntry)
    (ht : t < hi - lo) :
    (sliceOf boxes lo hi).getD t d = boxes.getD (lo + t) d := by
  have h := sliceOf_get? boxes lo hi t ht
  simp [List.getD_eq_getElem?_getD, ← List.get?_eq_getElem?, h]

/-- An in-range default-index hit is a member of the list. -/
theorem getD_mem {α : Type} (xs : List α) (i : ℕ) (d : α) (h : i < xs.length) :
    xs.getD i d ∈ xs := by
  rw [List.getD_eq_getElem xs d h]
  exact List.getElem_mem h

/-- Default indexing commutes with taking morton codes. -/
theorem map_morton_getD (sorted : List BoxEntry) (i : ℕ) (hlen : i < sorted.length) :
    (sorted.map BoxEntry.morton).getD i 0 = (sorted.getD i dfltEntry).morton := by
  rw [List.getD_eq_getElem _ _ (by simpa using hlen), List.getD_eq_getElem _ _ hlen,
      List.getElem_map]

/-- Indexing with default at a position known through get?. -/
theorem getD_of_get?_eq {α : Type} (xs : List α) (t : ℕ) (d e : α)
    (h : xs.get? t = some e) : xs.getD t d = e := by
  simp [List.getD_eq_getElem?_getD, ← List.get?_eq_getElem?, h]

/-- A leaf emitted by emit_leaf satisfies the size bound when its range is
small, and otherwise inherits the shared morton code of its range. -/
theorem emit_leaf_leaf_ok (boxes : List BoxEntry) (lo hi : ℕ) (st : BuildSt)
    (hcase : hi - lo ≤ MAX_PRIMS_IN_NODE ∨ MortonAgree boxes lo hi 0) :
    LeafOk boxes (emit_leaf boxes lo hi st).2.1 := by
  intro l hl
  have hll : l = (sliceOf boxes lo hi).map BoxEntry.idx := by
    simpa [emit_leaf] using hl.symm
  rcases hcase with hcase | hcase
  · left
    rw [hll, List.length_map, sliceOf, List.length_take]
    omega
  · right
    refine ⟨(boxes.getD lo dfltEntry).morton, ?_⟩
    intro i hi2
    rw [hll] at hi2
    obtain ⟨e, he, hei⟩ := List.mem_map.mp hi2
    refine ⟨e, sliceOf_subset boxes lo hi e he, hei, ?_⟩
    obtain ⟨t, hget⟩ := List.mem_iff_get?.mp he
    have ht : t < (sliceOf boxes lo hi).length := by
      by_contra hc
      rw [List.get?_eq_none.mpr (by omega)] at hget
      cases hget
    have htlen : (sliceOf boxes lo hi).length ≤ hi - lo := by
      rw [sliceOf, List.length_take]
      omega
    have hpos : 0 < hi - lo := by omega
    have hgb : boxes.get? (lo + t) = some e := by
      rw [← sliceOf_get? boxes lo hi t (by omega)]
      exact hget
    have hgd : boxes.getD (lo + t) dfltEntry = e := getD_of_get?_eq boxes (lo + t) dfltEntry e hgb
    have hag := hcase (lo + t) lo (by omega) (by omega) (le_refl lo) (by omega)
    rw [pow_zero, Nat.div_one, Nat.div_one, hgd] at hag
    exact hag

/-- When the ends of a sorted, bit-agreeing range also agree at the probed
bit, the whole range agrees one bit lower. -/
theorem agree_step_of_shared (boxes : List BoxEntry) (lo hi b : ℕ)
    (hlo : lo < hi)
    (hsort : MortonSortedRange boxes lo hi)
    (hagree : MortonAgree boxes lo hi (b + 1))
    (hsh : (boxes.getD lo dfltEntry).morton &&& 1 <<< b =
      (boxes.getD (hi - 1) dfltEntry).morton &&& 1 <<< b) :
    MortonAgree boxes lo hi b := by
  have hm : (1 : ℕ) <<< b = 2 ^ b := by rw [Nat.shiftLeft_eq, one_mul]
  rw [hm] at hsh
  have hbit := bit_eq_of_and_two_pow_eq _ _ _ hsh
  have hx : ∀ x, lo ≤ x → x < hi →
      (boxes.getD x dfltEntry).morton / 2 ^ b = (boxes.getD lo dfltEntry).morton / 2 ^ b := by
    intro x h1 h2
    exact (div_pow_eq_of_between _ _ _ b
      (hagree lo (hi - 1) (le_refl lo) hlo (by omega) (by omega))
      hbit
      (hsort lo x (le_refl lo) h1 h2)
      (hsort x (hi - 1) h1 (by omega) (by omega))).1
  intro i j h1 h2 h3 h4
  rw [hx i h1 h2, hx j h3 h4]

/-- Specification of the partition split of emit_lbvh: when the range ends
disagree at the probed bit, the split point falls strictly inside the range
and both halves agree at that bit. -/
theorem split_branch_spec (boxes : List BoxEntry) (lo hi b split : ℕ)
    (hsplit : split = lo + partition_point
      (fun e => decide (BoxEntry.morton e &&& 1 <<< b =
        (boxes.getD lo dfltEntry).morton &&& 1 <<< b)) (sliceOf boxes lo hi) dfltEntry)
    (hhi : hi ≤ boxes.length) (hbig : 16 < hi - lo)
    (hsort : MortonSortedRange boxes lo hi)
    (hagree : MortonAgree boxes lo hi (b + 1))
    (hsh : ¬((boxes.getD lo dfltEntry).morton &&& 1 <<< b =
      (boxes.getD (hi - 1) dfltEntry).morton &&& 1 <<< b)) :
    lo < split ∧ split < hi ∧ MortonAgree boxes lo split b ∧ MortonAgree boxes split hi b := by
  have hm : (1 : ℕ) <<< b = 2 ^ b := by rw [Nat.shiftLeft_eq, one_mul]
  have hslen : (sliceOf boxes lo hi).length = hi - lo := sliceOf_length boxes lo hi hhi
  have hmono : ∀ t u, t ≤ u → u < (sliceOf boxes lo hi).length →
      decide (BoxEntry.morton ((sliceOf boxes lo hi).getD u dfltEntry) &&& 1 <<< b =
        (boxes.getD lo dfltEntry).morton &&& 1 <<< b) = true →
      decide (BoxEntry.morton ((sliceOf boxes lo hi).getD t dfltEntry) &&& 1 <<< b =
        (boxes.getD lo dfltEntry).morton &&& 1 <<< b) = true := by
    intro t u htu hu hp
    simp only [decide_eq_true_eq] at hp ⊢
    rw [sliceOf_getD boxes lo hi u dfltEntry (by omega)] at hp
    rw [sliceOf_getD boxes lo hi t dfltEntry (by omega)]
    rw [hm] at hp ⊢
    apply and_two_pow_eq_of_bit_eq
    have hbu := bit_eq_of_and_two_pow_eq _ _ _ hp
    have hd := (div_pow_eq_of_between _ _ _ b
      (hagree lo (lo + u) (le_refl lo) (by omega) (by omega) (by omega))
      hbu.symm
      (hsort lo (lo + t) (le_refl lo) (by omega) (by omega))
      (hsort (lo + t) (lo + u) (by omega) (by omega) (by omega))).1
    rw [hd]
  obtain ⟨K, hK1, hK2⟩ := exists_boundary
    (fun e => decide (BoxEntry.morton e &&& 1 <<< b =
      (boxes.getD lo dfltEntry).morton &&& 1 <<< b))
    (sliceOf boxes lo hi) dfltEntry hmono
  have hpp : partition_point
      (fun e => decide (BoxEntry.morton e &&& 1 <<< b =
        (boxes.getD lo dfltEntry).morton &&& 1 <<< b)) (sliceOf boxes lo hi) dfltEntry = K := by
    rw [partition_point]
    exact partition_point_aux_boundary _ _ _ K hK2 (sliceOf boxes lo hi).length 0
      (sliceOf boxes lo hi).length (Nat.zero_le K) hK1 (le_refl _) (by omega)
  rw [hpp] at hsplit
  have hK0 : 0 < K := by
    have h0 := hK2 0 (by omega)
    rw [sliceOf_getD boxes lo hi 0 dfltEntry (by omega), Nat.add_zero] at h0
    exact h0.mp (by simp)
  have hKhi : K < hi - lo := by
    have hlast := hK2 (hi - lo - 1) (by omega)
    have harg : lo + (hi - lo - 1) = hi - 1 := by omega
    rw [sliceOf_getD boxes lo hi (hi - lo - 1) dfltEntry (by omega), harg] at hlast
    by_contra hc
    have hpeq := hlast.mpr (by omega)
    simp only [decide_eq_true_eq] at hpeq
    exact hsh hpeq.symm
  subst hsplit
  refine ⟨by omega, by omega, ?_, ?_⟩
  · have hbits : ∀ x, lo ≤ x → x < lo + K →
        (boxes.getD x dfltEntry).morton / 2 ^ b =
        (boxes.getD lo dfltEntry).morton / 2 ^ b := by
      intro x h1 h2
      have hx := (hK2 (x - lo) (by omega)).mpr (by omega)
      rw [sliceOf_getD boxes lo hi (x - lo) dfltEntry (by omega)] at hx
      have harg : lo + (x - lo) = x := by omega
      rw [harg] at hx
      simp only [decide_eq_true_eq] at hx
      rw [hm] at hx
      have hbx := bit_eq_of_and_two_pow_eq _ _ _ hx
      have e1 := div_pow_succ_eq (boxes.getD x dfltEntry).morton b
      have e2 := div_pow_succ_eq (boxes.getD lo dfltEntry).morton b
      have hH := hagree x lo h1 (by omega) (le_refl lo) (by omega)
      omega
    intro i j h1 h2 h3 h4
    rw [hbits i h1 h2, hbits j h3 h4]
  · have hbits : ∀ x, lo + K ≤ x → x < hi →
        (boxes.getD x dfltEntry).morton / 2 ^ b % 2 ≠
        (boxes.getD lo dfltEntry).morton / 2 ^ b % 2 := by
      intro x h1 h2 hceq
      have hx := hK2 (x - lo) (by omega)
      rw [sliceOf_getD boxes lo hi (x - lo) dfltEntry (by omega)] at hx
      have harg : lo + (x - lo) = x := by omega
      rw [harg] at hx
      have hfalse : ¬(x - lo < K) := by omega
      apply hfalse
      apply hx.mp
      simp only [decide_eq_true_eq]
      rw [hm]
      exact and_two_pow_eq_of_bit_eq _ _ _ hceq
    intro i j h1 h2 h3 h4
    have e1 := div_pow_succ_eq (boxes.getD i dfltEntry).morton b
    have e2 := div_pow_succ_eq (boxes.getD j dfltEntry).morton b
    have hH := hagree i j (by omega) h2 (by omega) h4
    have hb1 := hbits i h1 h2
    have hb2 := hbits j h3 h4
    have m1 := Nat.mod_two_eq_zero_or_one ((boxes.getD i dfltEntry).morton / 2 ^ b)
    have m2 := Nat.mod_two_eq_zero_or_one ((boxes.getD j dfltEntry).morton / 2 ^ b)
    have m0 := Nat.mod_two_eq_zero_or_one ((boxes.getD lo dfltEntry).morton / 2 ^ b)
    omega

/-- Every leaf emitted or stored by emit_lbvh on a sorted, bit-agreeing
range holds at most MAX_PRIMS_IN_NODE indices or a run of one shared morton
code. -/
theorem emit_lbvh_leaf_ok (boxes : List BoxEntry) :
    ∀ (bit lo hi : ℕ) (st : BuildSt),
      hi ≤ boxes.length →
      MortonSortedRange boxes lo hi →
      MortonAgree boxes lo hi bit →
      MapLeafOk boxes st.map →
      LeafOk boxes (emit_lbvh boxes bit lo hi st).2.1 ∧
      MapLeafOk boxes (emit_lbvh boxes bit lo hi st).2.2.map := by
  intro bit
  induction bit with
  | zero =>
    intro lo hi st hhi hsort hagree hmap
    exact ⟨emit_leaf_leaf_ok boxes lo hi st (Or.inr hagree), hmap⟩
  | succ b ih =>
    intro lo hi st hhi hsort hagree hmap
    by_cases h16 : hi - lo ≤ MAX_PRIMS_IN_NODE
    · rw [emit_lbvh, if_pos h16]
      exact ⟨emit_leaf_leaf_ok boxes lo hi st (Or.inl h16), hmap⟩
    · rw [emit_lbvh, if_neg h16]
      have hbig : 16 < hi - lo := by
        rw [MAX_PRIMS_IN_NODE] at h16
        omega
      by_cases hsh : (boxes.getD lo dfltEntry).morton &&& 1 <<< b =
          (boxes.getD (hi - 1) dfltEntry).morton &&& 1 <<< b
      · rw [if_pos hsh]
        exact ih lo hi st hhi hsort
          (agree_step_of_shared boxes lo hi b (by omega) hsort hagree hsh) hmap
      · rw [if_neg hsh]
        obtain ⟨hs1, hs2, hagl, hagr⟩ := split_branch_spec boxes lo hi b
          (lo + partition_point
            (fun e => decide (BoxEntry.morton e &&& 1 <<< b =
              (boxes.getD lo dfltEntry).morton &&& 1 <<< b)) (sliceOf boxes lo hi) dfltEntry)
          rfl hhi hbig hsort hagree hsh
        obtain ⟨hln, hlm⟩ := ih lo
          (lo + partition_point
            (fun e => decide (BoxEntry.morton e &&& 1 <<< b =
              (boxes.getD lo dfltEntry).morton &&& 1 <<< b)) (sliceOf boxes lo hi) dfltEntry)
          st (by omega) (fun i j a c d => hsort i j a c (by omega)) hagl hmap
        obtain ⟨hrn, hrm⟩ := ih
          (lo + partition_point
            (fun e => decide (BoxEntry.morton e &&& 1 <<< b =
              (boxes.getD lo dfltEntry).morton &&& 1 <<< b)) (sliceOf boxes lo hi) dfltEntry)
          hi _ hhi (fun i j a c d => hsort i j (by omega) c d) hagr hlm
        refine ⟨?_, ?_⟩
        · intro l hl
          simp at hl
        · intro p hp
          simp only [List.mem_append, List.mem_cons, List.mem_singleton] at hp
          rcases hp with hp | hp | hp
          · exact hrm p hp
          · rw [hp]; exact hln
          · simp only [List.not_mem_nil, or_false] at hp
            rw [hp]; exact hrn

/-- Every range produced by the treelet grouping loop is an in-bounds,
nonempty run of equal masked morton codes. -/
theorem treelet_go_ranges_ok (ms : List ℕ) (mask : ℕ) :
    ∀ (gas start e : ℕ), start < e →
      (∀ i, start ≤ i → i < e → i < ms.length →
        ms.getD i 0 &&& mask = ms.getD start 0 &&& mask) →
      ∀ r ∈ treelet_go ms mask gas start e, RangeOk ms mask r := by
  intro gas
  induction gas with
  | zero =>
    intro start e _ _ r hr
    simp only [treelet_go] at hr
    cases hr
  | succ g ih =>
    intro start e hse hrun r hr
    rw [treelet_go] at hr
    by_cases hle : e ≤ ms.length
    · rw [if_pos hle] at hr
      by_cases hbr : (e = ms.length ||
          !(decide ((ms.getD start 0) &&& mask = (ms.getD e 0) &&& mask))) = true
      · rw [if_pos hbr] at hr
        rcases List.mem_cons.mp hr with hr | hr
        · rw [hr]
          exact ⟨hle, hse, fun i h1 h2 => hrun i h1 h2 (by omega)⟩
        · refine ih e (e + 1) (by omega) ?_ r hr
          intro i h1 h2 h3
          have hie : i = e := by omega
          rw [hie]
      · rw [if_neg hbr] at hr
        simp only [Bool.or_eq_true, Bool.not_eq_true', decide_eq_false_iff_not, not_or,
          not_not] at hbr
        refine ih start (e + 1) (by omega) ?_ r hr
        intro i h1 h2 h3
        by_cases hie : i < e
        · exact hrun i h1 hie h3
        · have : i = e := by omega
          rw [this]
          exact hbr.2.symm
    · rw [if_neg hle] at hr
      cases hr

/-- The treelet ranges of BVH::new phase 2 are all in-bounds runs of equal
masked morton codes. -/
theorem treelet_ranges_ok (ms : List ℕ) (mask : ℕ) :
    ∀ r ∈ treelet_ranges ms mask, RangeOk ms mask r := by
  intro r hr
  rw [treelet_ranges] at hr
  refine treelet_go_ranges_ok ms mask (ms.length + 1) 0 1 (by omega) ?_ r hr
  intro i h1 h2 h3
  have : i = 0 := by omega
  rw [this]

/-- The phase 2 fold over treelets preserves the leaf size invariant. -/
theorem treelet_fold_leaf_ok (sorted : List BoxEntry)
    (hsort : MortonSortedRange sorted 0 sorted.length)
    (hlt : ∀ e ∈ sorted, BoxEntry.morton e < 2 ^ 64) :
    ∀ (ranges : List (ℕ × ℕ)) (acc : List TreeletEntry × BuildSt),
      (∀ r ∈ ranges, RangeOk (sorted.map BoxEntry.morton) 0xFFFFFFFFFF000000 r) →
      MapLeafOk sorted acc.2.map →
      MapLeafOk sorted ((ranges.foldl (treelet_step sorted) acc).2.map) := by
  intro ranges
  induction ranges with
  | nil => intro acc _ h; simpa using h
  | cons r rest ih =>
    intro acc hr h
    rw [List.foldl_cons]
    refine ih _ (fun q hq => hr q (List.mem_cons_of_mem r hq)) ?_
    obtain ⟨hre, hrlt, hrmask⟩ := hr r (List.mem_cons_self r rest)
    have hlenm : (sorted.map BoxEntry.morton).length = sorted.length := List.length_map _ _
    have hagree : MortonAgree sorted r.1 r.2 25 := by
      have h24 : ∀ x, r.1 ≤ x → x < r.2 →
          (sorted.getD x dfltEntry).morton / 2 ^ 24 =
          (sorted.getD r.1 dfltEntry).morton / 2 ^ 24 := by
        intro x hx1 hx2
        have hxlen : x < sorted.length := by omega
        have h1len : r.1 < sorted.length := by omega
        have hmEq := hrmask x hx1 hx2
        rw [map_morton_getD sorted x hxlen, map_morton_getD sorted r.1 h1len] at hmEq
        exact and_mask_div_eq _ _
          (hlt _ (getD_mem sorted x dfltEntry hxlen))
          (hlt _ (getD_mem sorted r.1 dfltEntry h1len)) hmEq
      intro i j h1 h2 h3 h4
      have e1 : (sorted.getD i dfltEntry).morton / 2 ^ 25 =
          (sorted.getD i dfltEntry).morton / 2 ^ 24 / 2 := by
        rw [Nat.div_div_eq_div_mul]
        norm_num
      have e2 : (sorted.getD j dfltEntry).morton / 2 ^ 25 =
          (sorted.getD j dfltEntry).morton / 2 ^ 24 / 2 := by
        rw [Nat.div_div_eq_div_mul]
        norm_num
      rw [e1, e2, h24 i h1 h2, h24 j h3 h4]
    have hsub : MortonSortedRange sorted r.1 r.2 := fun i j a c d =>
      hsort i j (Nat.zero_le i) c (by omega)
    obtain ⟨hnode, hmap⟩ := emit_lbvh_leaf_ok sorted 25 r.1 r.2 acc.2
      (by omega) hsub hagree h
    intro p hp
    simp only [treelet_step, List.mem_append, List.mem_singleton] at hp
    rcases hp with hp | hp
    · exact hmap p hp
    · rw [hp]; exact hnode

/-- make_split_tree stores only childless-or-interior nodes without
elements, so it preserves the leaf size invariant and its own result has
no elements. -/
theorem make_split_tree_leaf_ok (bx : List BoxEntry) :
    ∀ (dpt : ℕ) (horizontal : Bool) (lo hi : ℕ) (boxes : List TreeletEntry)
      (st : BuildSt) (bounding : Box2D),
      MapLeafOk bx st.map →
      LeafOk bx (make_split_tree dpt horizontal lo hi boxes st bounding).2.1 ∧
      MapLeafOk bx (make_split_tree dpt horizontal lo hi boxes st bounding).2.2.2.map := by
  intro dpt
  induction dpt with
  | zero =>
    intro horizontal lo hi boxes st bounding h
    refine ⟨?_, by simpa [make_split_tree, split_leaf] using h⟩
    intro l hl
    simp only [make_split_tree, split_leaf] at hl
    cases hl
  | succ d ih =>
    intro horizontal lo hi boxes st bounding h
    by_cases h2 : hi - lo ≤ 2
    · rw [make_split_tree, if_pos h2]
      refine ⟨?_, by simpa [split_leaf] using h⟩
      intro l hl
      simp only [split_leaf] at hl
      cases hl
    · rw [make_split_tree, if_neg h2]
      obtain ⟨h1n, h1m⟩ := ih (!horizontal) lo _ _ st _ h
      obtain ⟨h2n, h2m⟩ := ih (!horizontal) _ hi _ _ _ h1m
      refine ⟨?_, ?_⟩
      · intro l hl
        simp at hl
      · intro kn hkn
        simp only [List.mem_append, List.mem_cons, List.mem_singleton] at hkn
        rcases hkn with hkn | hkn | hkn
        · exact h2m kn hkn
        · rw [hkn]; exact h1n
        · simp only [List.not_mem_nil, or_false] at hkn
          rw [hkn]; exact h2n

/-- The insertion sort of phase 1 produces a globally morton-sorted working
array. -/
theorem insertionSort_sorted_range (l : List BoxEntry) :
    MortonSortedRange
      (List.insertionSort (fun a b => BoxEntry.morton a ≤ BoxEntry.morton b) l) 0
      (List.insertionSort (fun a b => BoxEntry.morton a ≤ BoxEntry.morton b) l).length := by
  haveI ht1 : IsTotal BoxEntry (fun a b => BoxEntry.morton a ≤ BoxEntry.morton b) :=
    ⟨fun a b => Nat.le_total _ _⟩
  haveI ht2 : IsTrans BoxEntry (fun a b => BoxEntry.morton a ≤ BoxEntry.morton b) :=
    ⟨fun a b c => Nat.le_trans⟩
  have hs := List.sorted_insertionSort (fun a b => BoxEntry.morton a ≤ BoxEntry.morton b) l
  intro i j h1 h2 h3
  rcases Nat.eq_or_lt_of_le h2 with he | hlt
  · rw [he]
  · rw [List.getD_eq_getElem _ _ (by omega), List.getD_eq_getElem _ _ h3]
    exact List.pairwise_iff_getElem.mp hs i j (by omega) h3 hlt

/-- Every entry of the normalized working array of BVH::new records the
morton code that segment_morton assigns to its segment index, and that code
is a 64-bit value. -/
theorem normalized_morton (segments : List LineSegment) (bounding : Box2D)
    (hb : reduceEncase ((segments.enum.map (fun p => (p.1, p.2.get_box))).map
      (fun p => p.2)) = some bounding)
    (e : BoxEntry)
    (he : e ∈ (segments.enum.map (fun p => (p.1, p.2.get_box))).map (fun p =>
      let span := bounding.max.sub bounding.min
      let nbx : Box2D := ⟨(p.2.min.sub bounding.min).div span,
                          (p.2.max.sub bounding.min).div span⟩
      let centroid := nbx.centroid.smul (.fin (2 ^ 20))
      (p.1, nbx, morton_encode centroid.x.toU32 centroid.y.toU32))) :
    segment_morton segments (BoxEntry.idx e) = some (BoxEntry.morton e) ∧
      BoxEntry.morton e < 2 ^ 64 := by
  simp only [List.mem_map] at he
  obtain ⟨p, hp, hpe⟩ := he
  obtain ⟨q, hq, hqp⟩ := hp
  have hget : segments.get? q.1 = some q.2 := by
    rw [List.get?_eq_getElem?]
    exact List.mem_enum_iff_getElem?.mp hq
  rw [← hpe, ← hqp]
  refine ⟨?_, morton_encode_lt _ _⟩
  simp only [segment_morton, hb]
  show (segments.get? q.1).map _ = some _
  rw [hget]
  rfl

/-- C8 amended: every leaf node of every BVH produced by BVH::new holds at
most MAX_PRIMS_IN_NODE segment indices unless all segments of its range
were assigned one shared morton code by the normalization phase, in which
case the leaf holds that entire run (which can exceed the bound, as the
17-identical-segment counterexample shows). -/
theorem c8_leaf_size_amended (segments : List LineSegment) (id : ℕ) (node : BVHNode)
    (l : List ℕ) (hmem : (id, node) ∈ (BVH.new segments).box_map)
    (helems : node.elements = some l) :
    l.length ≤ MAX_PRIMS_IN_NODE ∨
      ∃ mo, ∀ i ∈ l, segment_morton segments i = some mo := by
  have main : ∀ kn ∈ (BVH.new segments).box_map, ∀ l2, kn.2.elements = some l2 →
      l2.length ≤ MAX_PRIMS_IN_NODE ∨
        ∃ mo, ∀ i ∈ l2, segment_morton segments i = some mo := by
    rw [BVH.new]
    cases hb : reduceEncase ((segments.enum.map (fun p => (p.1, p.2.get_box))).map
        (fun p => p.2)) with
    | none =>
      intro kn hkn l2 hl2
      simp only [List.mem_singleton] at hkn
      rw [hkn] at hl2
      simp at hl2
    | some bounding =>
      intro kn hkn l2 hl2
      simp only [List.mem_map] at hkn
      obtain ⟨kn0, hkn0, hremap⟩ := hkn
      simp only [List.mem_append, List.mem_singleton] at hkn0
      have hlt : ∀ e ∈ List.insertionSort (fun a b => BoxEntry.morton a ≤ BoxEntry.morton b)
          ((segments.enum.map (fun p => (p.1, p.2.get_box))).map (fun p =>
            let span := bounding.max.sub bounding.min
            let nbx : Box2D := ⟨(p.2.min.sub bounding.min).div span,
                                (p.2.max.sub bounding.min).div span⟩
            let centroid := nbx.centroid.smul (.fin (2 ^ 20))
            (p.1, nbx, morton_encode centroid.x.toU32 centroid.y.toU32))),
          BoxEntry.morton e < 2 ^ 64 := fun e he =>
        (normalized_morton segments bounding hb e ((List.perm_insertionSort _ _).subset he)).2
      have hfold := treelet_fold_leaf_ok _ (insertionSort_sorted_range _) hlt _
        ([], (⟨0, []⟩ : BuildSt)) (treelet_ranges_ok _ _)
        (fun p hp => absurd hp (List.not_mem_nil p))
      have hel : kn0.2.elements = some l2 := by
        rw [← hremap] at hl2
        exact hl2
      have hok : LeafOk (List.insertionSort (fun a b => BoxEntry.morton a ≤ BoxEntry.morton b)
          ((segments.enum.map (fun p => (p.1, p.2.get_box))).map (fun p =>
            let span := bounding.max.sub bounding.min
            let nbx : Box2D := ⟨(p.2.min.sub bounding.min).div span,
                                (p.2.max.sub bounding.min).div span⟩
            let centroid := nbx.centroid.smul (.fin (2 ^ 20))
            (p.1, nbx, morton_encode centroid.x.toU32 centroid.y.toU32)))) kn0.2 := by
        rcases hkn0 with hkn0 | hkn0
        · exact (make_split_tree_leaf_ok _ 6 true 0 _ _ _ _ hfold).2 kn0 hkn0
        · rw [hkn0]
          exact (make_split_tree_leaf_ok _ 6 true 0 _ _ _ _ hfold).1
      rcases hok l2 hel with h | ⟨mo, hmo⟩
      · exact Or.inl h
      · refine Or.inr ⟨mo, ?_⟩
        intro i hi2
        obtain ⟨e, hes, hidx, hmort⟩ := hmo i hi2
        have hnm := normalized_morton segments bounding hb e
          ((List.perm_insertionSort _ _).subset hes)
        rw [hidx, hmort] at hnm
        exact hnm.1
  exact main (id, node) hmem l helems

unseal Rat.add Rat.mul Rat.inv Rat.sub in
/-- Witness for c8_leaf_size_amended at the single leaf of a one-segment
build. -/
theorem c8_leaf_size_amended_witness :
    ([0] : List ℕ).length ≤ MAX_PRIMS_IN_NODE ∨
      ∃ mo, ∀ i ∈ ([0] : List ℕ), segment_morton [northSeg] i = some mo :=
  c8_leaf_size_amended [northSeg] 0
    ⟨none, ⟨⟨.fin (-1/2), .nan⟩, ⟨.fin (1/2), .nan⟩⟩, some [0]⟩ [0] (by decide) rfl

/-- Setting an in-bounds position and reading it back. -/
theorem getD_set_eq {α : Type} (l : List α) (k : ℕ) (v d : α) (h : k < l.length) :
    (l.set k v).getD k d = v := by
  rw [List.getD_eq_getElem _ _ (by simpa using h)]
  simp [List.getElem_set, h]

/-- Setting one position leaves every other read unchanged. -/
theorem getD_set_ne {α : Type} (l : List α) (k i : ℕ) (v d : α) (h : k ≠ i) :
    (l.set k v).getD i d = l.getD i d := by
  simp [List.getD_eq_getElem?_getD, List.getElem?_set_ne h]

/-- Overwriting a position with the value it already holds is the
identity. -/
theorem set_self_of_get? {α : Type} (l : List α) (k : ℕ) (v : α)
    (h : l.get? k = some v) : l.set k v = l := by
  apply List.ext_getElem?
  intro i
  by_cases hik : k = i
  · subst hik
    rw [List.getElem?_set_self', ← List.get?_eq_getElem?, h]
    simp
  · rw [List.getElem?_set_ne hik]

/-- Reads from the all-none array are none. -/
theorem getD_replicate_none {α : Type} (n i : ℕ) :
    (List.replicate n (none : Option α)).getD i none = none := by
  by_cases h : i < n
  · rw [List.getD_eq_getElem _ _ (by simpa using h)]
    exact List.getElem_replicate ..
  · rw [List.getD_eq_default]
    simpa using h

/-- A non-default read with default comes from a real entry. -/
theorem get?_of_getD_ne {α : Type} (l : List α) (k : ℕ) (v d : α)
    (h : l.getD k d = v) (hne : v ≠ d) : l.get? k = some v := by
  cases hg : l.get? k with
  | none =>
    have h2 : l.getD k d = d := by
      simp [List.getD_eq_getElem?_getD, ← List.get?_eq_getElem?, hg]
    rw [h2] at h
    exact absurd h.symm hne
  | some w =>
    have h2 : l.getD k d = w := by
      simp [List.getD_eq_getElem?_getD, ← List.get?_eq_getElem?, hg]
    rw [h2] at h
    rw [h]

/-- The linear pixel index is injective on in-grid cells. -/
theorem cellIdx_inj (size : UVec2) (c d : UVec2) (hc : inGrid size c)
    (hd : inGrid size d) (h : cellIdx size.x c = cellIdx size.x d) : c = d := by
  obtain ⟨hc1, hc2⟩ := hc
  obtain ⟨hd1, hd2⟩ := hd
  simp only [cellIdx] at h
  have hm := congrArg (fun z => z % size.x) h
  simp only [Nat.add_mul_mod_self_right] at hm
  rw [Nat.mod_eq_of_lt hc1, Nat.mod_eq_of_lt hd1] at hm
  have hw : 0 < size.x := by omega
  have hy : c.y = d.y :=
    Nat.eq_of_mul_eq_mul_right hw (by omega : c.y * size.x = d.y * size.x)
  obtain ⟨cx, cy⟩ := c
  obtain ⟨dx, dy⟩ := d
  simp only at hm hy
  rw [hm, hy]

/-- The linear pixel index of an in-grid cell is below the cell count. -/
theorem cellIdx_lt (size : UVec2) (c : UVec2) (hc : inGrid size c) :
    cellIdx size.x c < size.x * size.y := by
  obtain ⟨h1, h2⟩ := hc
  rw [cellIdx]
  have h3 : c.y * size.x ≤ (size.y - 1) * size.x :=
    Nat.mul_le_mul_right _ (by omega)
  have h4 : size.x + (size.y - 1) * size.x = size.x * size.y := by
    cases hy : size.y with
    | zero => omega
    | succ n =>
      simp only [Nat.add_sub_cancel]
      ring
  omega

/-- Adjacency is symmetric. -/
theorem adjacent_symm (b c : UVec2) (h : adjacent b c) : adjacent c b := by
  rcases h with ⟨h1, h2⟩ | ⟨h1, h2⟩
  · exact Or.inl ⟨h1.symm, h2.symm⟩
  · exact Or.inr ⟨h1.symm, h2.symm⟩

/-- Adjacent cells are distinct. -/
theorem adjacent_ne (b c : UVec2) (h : adjacent b c) : b ≠ c := by
  intro he
  subst he
  rcases h with ⟨_, h2⟩ | ⟨_, h2⟩ <;> omega

/-- Both endpoints of a connectivity witness are occupied in-grid cells. -/
theorem conn_ends (size : UVec2) (pixels : List Bool) (a b : UVec2)
    (h : Conn size pixels a b) :
    (inGrid size a ∧ occAt pixels size.x a) ∧
      (inGrid size b ∧ occAt pixels size.x b) := by
  induction h with
  | refl h1 h2 => exact ⟨⟨h1, h2⟩, ⟨h1, h2⟩⟩
  | step b c hab hadj h1 h2 ih => exact ⟨ih.1, h1, h2⟩

/-- Connectivity is transitive. -/
theorem conn_trans (size : UVec2) (pixels : List Bool) (a b c : UVec2)
    (h1 : Conn size pixels a b) (h2 : Conn size pixels b c) :
    Conn size pixels a c := by
  induction h2 with
  | refl hc1 hc2 => exact h1
  | step y z hxy hadj hz1 hz2 ih => exact Conn.step a y z ih hadj hz1 hz2

/-- Connectivity is symmetric. -/
theorem conn_symm (size : UVec2) (pixels : List Bool) (a b : UVec2)
    (h : Conn size pixels a b) : Conn size pixels b a := by
  induction h with
  | refl h1 h2 => exact Conn.refl _ h1 h2
  | step y z hxy hadj hz1 hz2 ih =>
    have hy := (conn_ends size pixels a y hxy).2
    exact conn_trans size pixels z y a
      (Conn.step z z y (Conn.refl z hz1 hz2) (adjacent_symm y z hadj) hy.1 hy.2) ih

/-- Full case description of try_add, including the objects write. -/
theorem try_add_tags (pixels : List Bool) (w : ℕ) (τ : ObjectTag)
    (st : FillState) (nb : UVec2) (emit : Bool) (st1 : FillState)
    (h : try_add pixels w τ st nb = some (emit, st1)) :
    (st.visited.contains nb = true ∧ emit = false ∧ st1 = st) ∨
    (st.visited.contains nb = false ∧ pixels.get? (cellIdx w nb) = some false ∧
      emit = true ∧ st1 = st) ∨
    (st.visited.contains nb = false ∧ pixels.get? (cellIdx w nb) = some true ∧
      emit = false ∧
      st1 = { st with objects := st.objects.set (cellIdx w nb) (some τ),
                      stack := nb :: st.stack }) := by
  rw [try_add] at h
  by_cases hv : st.visited.contains nb
  · rw [if_pos hv] at h
    injection h with h
    injection h with h1 h2
    exact Or.inl ⟨hv, h1.symm, h2.symm⟩
  · rw [if_neg hv] at h
    cases hp : pixels.get? (cellIdx w nb) with
    | none => rw [hp] at h; cases h
    | some px =>
      rw [hp] at h
      cases px with
      | false =>
        simp only [Bool.not_false, if_pos] at h
        injection h with h
        injection h with h1 h2
        exact Or.inr (Or.inl ⟨by simpa using hv, rfl, h1.symm, h2.symm⟩)
      | true =>
        simp only [Bool.not_true, Bool.false_eq_true, if_false] at h
        injection h with h
        injection h with h1 h2
        exact Or.inr (Or.inr ⟨by simpa using hv, rfl, h1.symm, h2.symm⟩)

/-- One successful neighbor probe preserves the working invariant of the
pop of c, never shrinks the tag map, leaves the visited set unchanged, and
guarantees that an occupied probed neighbor ends up carrying the current
tag. -/
theorem neighbor_step_winv (pixels : List Bool) (size : UVec2) (τ : ℕ)
    (c : UVec2) (guard : Bool) (nb : UVec2) (dir : Direction) (st st1 : FillState)
    (hWH : size.x * size.y = pixels.length)
    (hres : neighbor_step pixels size τ c guard nb dir st = some st1)
    (hnb : guard = true → inGrid size nb ∧ adjacent c nb)
    (hcin : inGrid size c) (hcocc : occAt pixels size.x c)
    (hcvis : c ∈ st.visited) (hctag : objAt size.x st c = some τ)
    (hinv : WInv size pixels τ c st) :
    WInv size pixels τ c st1 ∧ st1.visited = st.visited ∧
    (∀ k t, st.objects.getD k none = some t → st1.objects.getD k none = some t) ∧
    (guard = true → occAt pixels size.x nb → objAt size.x st1 nb = some τ) := by
  obtain ⟨hlen, hstk, hvis, htag, hclo, hconn, hbnd⟩ := hinv
  rw [neighbor_step] at hres
  cases guard with
  | false =>
    rw [if_neg (by simp)] at hres
    injection hres with hres
    subst hres
    exact ⟨⟨hlen, hstk, hvis, htag, hclo, hconn, hbnd⟩, rfl,
      fun k t h => h, fun hg => by cases hg⟩
  | true =>
    rw [if_pos rfl] at hres
    obtain ⟨hnbin, hnbadj⟩ := hnb rfl
    have hnbne : nb ≠ c := Ne.symm (adjacent_ne c nb hnbadj)
    cases hta : try_add pixels size.x τ st nb with
    | none => rw [hta] at hres; cases hres
    | some pr =>
      obtain ⟨emit, st2⟩ := pr
      rw [hta] at hres
      injection hres with hres
      rcases try_add_tags pixels size.x τ st nb emit st2 hta with
        ⟨hcont, hemit, hst2⟩ | ⟨hcont, hfree, hemit, hst2⟩ | ⟨hcont, hocc2, hemit, hst2⟩
      · subst hemit
        rw [hst2] at hres
        rw [if_neg (by simp)] at hres
        rw [← hres]
        have hnbvis : nb ∈ st.visited := by simpa using hcont
        refine ⟨⟨hlen, hstk, hvis, htag, hclo, hconn, hbnd⟩, rfl,
          fun k t h => h, ?_⟩
        intro _ _
        exact (hclo nb hnbvis hnbne c (adjacent_symm c nb hnbadj) hcin hcocc).symm.trans
          hctag
      · subst hemit
        rw [hst2] at hres
        rw [if_pos rfl] at hres
        rw [← hres]
        refine ⟨⟨hlen, hstk, hvis, htag, hclo, hconn, hbnd⟩, rfl,
          fun k t h => h, ?_⟩
        intro _ hnbocc
        rw [occAt, hfree] at hnbocc
        exact absurd hnbocc (by simp)
      · subst hemit
        subst hst2
        rw [if_neg (by simp)] at hres
        have hobjS : st1.objects = st.objects.set (cellIdx size.x nb) (some τ) := by
          rw [← hres]
        have hstkS : st1.stack = nb :: st.stack := by rw [← hres]
        have hvisS : st1.visited = st.visited := by rw [← hres]
        have hnbocc : occAt pixels size.x nb := hocc2
        have hnbnvis : nb ∉ st.visited := by
          intro hm
          have hc2 : st.visited.contains nb = true := by simpa using hm
          rw [hc2] at hcont
          cases hcont
        have hbndS : ∀ t, some t ∈ st1.objects → t ≤ τ := by
          intro t hm
          rw [hobjS] at hm
          rcases List.mem_or_eq_of_mem_set hm with hm | hm
          · exact hbnd t hm
          · injection hm with hm
            exact Nat.le_of_eq hm
        by_cases htagged : objAt size.x st nb = none
        · -- fresh write: the neighbor was untagged
          have hklen : cellIdx size.x nb < st.objects.length := by
            rw [hlen, ← hWH]
            exact cellIdx_lt size nb hnbin
          have hOAnb : objAt size.x st1 nb = some τ := by
            rw [objAt, hobjS]
            exact getD_set_eq _ _ _ _ hklen
          have hOAne : ∀ v, cellIdx size.x v ≠ cellIdx size.x nb →
              objAt size.x st1 v = objAt size.x st v := by
            intro v hv
            rw [objAt, objAt, hobjS]
            exact getD_set_ne _ _ _ _ _ (Ne.symm hv)
          have hNE : ∀ v, inGrid size v → objAt size.x st v ≠ none →
              cellIdx size.x v ≠ cellIdx size.x nb := by
            intro v hvin hvt he
            exact hvt (cellIdx_inj size v nb hvin hnbin he ▸ htagged)
          refine ⟨⟨?_, ?_, ?_, ?_, ?_, ?_, hbndS⟩, hvisS, ?_, fun _ _ => hOAnb⟩
          · rw [hobjS, List.length_set]
            exact hlen
          · intro v hv
            rw [hstkS] at hv
            rcases List.mem_cons.mp hv with hv | hv
            · rw [hv]
              exact ⟨hnbin, hnbocc, hOAnb⟩
            · obtain ⟨h1, h2, h3⟩ := hstk v hv
              exact ⟨h1, h2, by rw [hOAne v (hNE v h1 (by rw [h3]; simp))]; exact h3⟩
          · intro v hv
            rw [hvisS] at hv
            obtain ⟨h1, h2, h3⟩ := hvis v hv
            exact ⟨h1, h2, by rw [hOAne v (hNE v h1 h3)]; exact h3⟩
          · intro v hvin hvt
            rw [hvisS, hstkS]
            by_cases hvk : cellIdx size.x v = cellIdx size.x nb
            · right
              rw [cellIdx_inj size v nb hvin hnbin hvk]
              exact List.mem_cons_self nb st.stack
            · rw [hOAne v hvk] at hvt
              rcases htag v hvin hvt with h | h
              · exact Or.inl h
              · exact Or.inr (List.mem_cons_of_mem nb h)
          · intro v hv hvne d hadj hdin hdocc
            rw [hvisS] at hv
            obtain ⟨h1, h2, h3⟩ := hvis v hv
            rw [hOAne v (hNE v h1 h3)]
            by_cases hdk : cellIdx size.x d = cellIdx size.x nb
            · have hd : d = nb := cellIdx_inj size d nb hdin hnbin hdk
              subst hd
              have hvnone : objAt size.x st v = none :=
                (hclo v hv hvne d hadj hdin hdocc).symm.trans htagged
              exact absurd hvnone h3
            · rw [hOAne d hdk]
              exact hclo v hv hvne d hadj hdin hdocc
          · intro a b hain hbin hat heq
            by_cases hak : cellIdx size.x a = cellIdx size.x nb
            · have ha : a = nb := cellIdx_inj size a nb hain hnbin hak
              by_cases hbk : cellIdx size.x b = cellIdx size.x nb
              · have hb : b = nb := cellIdx_inj size b nb hbin hnbin hbk
                rw [ha, hb]
                exact Conn.refl nb hnbin hnbocc
              · rw [ha] at heq
                rw [hOAnb, hOAne b hbk] at heq
                have hcb : Conn size pixels c b := hconn c b hcin hbin
                  (by rw [hctag]; simp) (hctag.trans heq)
                rw [ha]
                exact conn_trans size pixels nb c b
                  (conn_symm size pixels c nb
                    (Conn.step c c nb (Conn.refl c hcin hcocc) hnbadj hnbin hnbocc)) hcb
            · by_cases hbk : cellIdx size.x b = cellIdx size.x nb
              · have hb : b = nb := cellIdx_inj size b nb hbin hnbin hbk
                rw [hb] at heq
                rw [hOAnb, hOAne a hak] at heq
                rw [hOAne a hak] at hat
                have hac : Conn size pixels a c := hconn a c hain hcin hat
                  (heq.trans hctag.symm)
                rw [hb]
                exact conn_trans size pixels a c nb hac
                  (Conn.step c c nb (Conn.refl c hcin hcocc) hnbadj hnbin hnbocc)
              · rw [hOAne a hak] at hat heq
                rw [hOAne b hbk] at heq
                exact hconn a b hain hbin hat heq
          · intro k t hkt
            by_cases hkk : cellIdx size.x nb = k
            · subst hkk
              rw [objAt] at htagged
              rw [htagged] at hkt
              cases hkt
            · rw [hobjS, getD_set_ne _ _ _ _ _ hkk]
              exact hkt
        · -- the neighbor already carried the current tag: identity overwrite
          have htagτ : objAt size.x st nb = some τ := by
            rcases htag nb hnbin htagged with h | h
            · exact absurd h hnbnvis
            · exact (hstk nb h).2.2
          have hset : st.objects.set (cellIdx size.x nb) (some τ) = st.objects :=
            set_self_of_get? _ _ _
              (get?_of_getD_ne st.objects (cellIdx size.x nb) (some τ) none htagτ
                (by simp))
          have hobj1 : st1.objects = st.objects := hobjS.trans hset
          have hOAeq : ∀ v, objAt size.x st1 v = objAt size.x st v := by
            intro v
            rw [objAt, objAt, hobj1]
          refine ⟨⟨?_, ?_, ?_, ?_, ?_, ?_, fun t hm => hbnd t (hobj1 ▸ hm)⟩,
            hvisS, ?_, ?_⟩
          · rw [hobj1]
            exact hlen
          · intro v hv
            rw [hstkS] at hv
            rcases List.mem_cons.mp hv with hv | hv
            · rw [hv]
              exact ⟨hnbin, hnbocc, (hOAeq nb).trans htagτ⟩
            · obtain ⟨h1, h2, h3⟩ := hstk v hv
              exact ⟨h1, h2, (hOAeq v).trans h3⟩
          · intro v hv
            rw [hvisS] at hv
            obtain ⟨h1, h2, h3⟩ := hvis v hv
            exact ⟨h1, h2, by rw [hOAeq v]; exact h3⟩
          · intro v hvin hvt
            rw [hvisS, hstkS]
            rw [hOAeq v] at hvt
            rcases htag v hvin hvt with h | h
            · exact Or.inl h
            · exact Or.inr (List.mem_cons_of_mem nb h)
          · intro v hv hvne d hadj hdin hdocc
            rw [hvisS] at hv
            rw [hOAeq d, hOAeq v]
            exact hclo v hv hvne d hadj hdin hdocc
          · intro a b hain hbin hat heq
            rw [hOAeq a] at hat heq
            rw [hOAeq b] at heq
            exact hconn a b hain hbin hat heq
          · intro k t hkt
            rw [hobj1]
            exact hkt
          · intro _ _
            exact (hOAeq nb).trans htagτ

/-- Componentwise construction of grid cells. -/
theorem uvec2_ext (d : UVec2) (x y : ℕ) (hx : d.x = x) (hy : d.y = y) :
    d = ⟨x, y⟩ := by
  obtain ⟨dx, dy⟩ := d
  simp only at hx hy
  rw [hx, hy]

/-- One pop of the flood fill preserves the run invariant: the popped cell
joins the visited set and the four probes re-establish the neighbor
propagation property for it. -/
theorem fill_step_runinv (pixels : List Bool) (size : UVec2) (τ : ℕ)
    (c : UVec2) (st st4 : FillState)
    (hWH : size.x * size.y = pixels.length)
    (hres : fill_step pixels size τ c st = some st4)
    (hcin : inGrid size c) (hcocc : occAt pixels size.x c)
    (hctag : objAt size.x st c = some τ)
    (hlen : st.objects.length = pixels.length)
    (hstk : ∀ v ∈ st.stack, inGrid size v ∧ occAt pixels size.x v ∧
      objAt size.x st v = some τ)
    (hvis : ∀ v ∈ st.visited, inGrid size v ∧ occAt pixels size.x v ∧
      objAt size.x st v ≠ none)
    (htag : ∀ v, inGrid size v → objAt size.x st v ≠ none →
      v ∈ st.visited ∨ v = c ∨ v ∈ st.stack)
    (hclo : ∀ v ∈ st.visited, ∀ d, adjacent v d → inGrid size d →
      occAt pixels size.x d → objAt size.x st d = objAt size.x st v)
    (hconn : ∀ a b, inGrid size a → inGrid size b → objAt size.x st a ≠ none →
      objAt size.x st a = objAt size.x st b → Conn size pixels a b)
    (hbnd : ∀ t, some t ∈ st.objects → t ≤ τ) :
    FillRunInv size pixels τ st4 ∧ st4.visited = c :: st.visited ∧
      (∀ k t, st.objects.getD k none = some t →
        st4.objects.getD k none = some t) := by
  obtain ⟨hcx, hcy⟩ := hcin
  have hcin : inGrid size c := ⟨hcx, hcy⟩
  have hW0 : WInv size pixels τ c {st with visited := c :: st.visited} := by
    refine ⟨hlen, hstk, ?_, ?_, ?_, hconn, hbnd⟩
    · intro v hv
      rcases List.mem_cons.mp hv with hv | hv
      · rw [hv]
        refine ⟨hcin, hcocc, ?_⟩
        show objAt size.x st c ≠ none
        rw [hctag]
        simp
      · exact hvis v hv
    · intro v hvin hvt
      rcases htag v hvin hvt with h | h | h
      · exact Or.inl (List.mem_cons_of_mem c h)
      · exact Or.inl (by rw [h]; exact List.mem_cons_self c st.visited)
      · exact Or.inr h
    · intro v hv hvne d hadj hdin hdocc
      rcases List.mem_cons.mp hv with hv | hv
      · exact absurd hv hvne
      · exact hclo v hv d hadj hdin hdocc
  have hgW : decide (c.x > 0) = true →
      inGrid size ⟨c.x - 1, c.y⟩ ∧ adjacent c ⟨c.x - 1, c.y⟩ := by
    intro hg
    have hg2 := of_decide_eq_true hg
    constructor
    · show c.x - 1 < size.x ∧ c.y < size.y
      omega
    · right
      refine ⟨rfl, Or.inl ?_⟩
      show c.x = c.x - 1 + 1
      omega
  have hgE : decide (c.x < size.x - 1) = true →
      inGrid size ⟨c.x + 1, c.y⟩ ∧ adjacent c ⟨c.x + 1, c.y⟩ := by
    intro hg
    have hg2 := of_decide_eq_true hg
    constructor
    · show c.x + 1 < size.x ∧ c.y < size.y
      omega
    · exact Or.inr ⟨rfl, Or.inr rfl⟩
  have hgN : decide (c.y > 0) = true →
      inGrid size ⟨c.x, c.y - 1⟩ ∧ adjacent c ⟨c.x, c.y - 1⟩ := by
    intro hg
    have hg2 := of_decide_eq_true hg
    constructor
    · show c.x < size.x ∧ c.y - 1 < size.y
      omega
    · left
      refine ⟨rfl, Or.inl ?_⟩
      show c.y = c.y - 1 + 1
      omega
  have hgS : decide (c.y < size.y - 1) = true →
      inGrid size ⟨c.x, c.y + 1⟩ ∧ adjacent c ⟨c.x, c.y + 1⟩ := by
    intro hg
    have hg2 := of_decide_eq_true hg
    constructor
    · show c.x < size.x ∧ c.y + 1 < size.y
      omega
    · exact Or.inl ⟨rfl, Or.inr rfl⟩
  simp only [fill_step] at hres
  cases h1 : neighbor_step pixels size τ c (decide (c.x > 0)) ⟨c.x - 1, c.y⟩ .West
      {st with visited := c :: st.visited} with
  | none => rw [h1] at hres; cases hres
  | some stW =>
    rw [h1] at hres
    simp only [] at hres
    obtain ⟨hW1, hW2, hW3, hW4⟩ := neighbor_step_winv pixels size τ c _ _ .West _ stW
      hWH h1 hgW hcin hcocc (List.mem_cons_self c st.visited) hctag hW0
    cases h2 : neighbor_step pixels size τ c (decide (c.x < size.x - 1))
        ⟨c.x + 1, c.y⟩ .East stW with
    | none => rw [h2] at hres; cases hres
    | some stE =>
      rw [h2] at hres
      simp only [] at hres
      obtain ⟨hE1, hE2, hE3, hE4⟩ := neighbor_step_winv pixels size τ c _ _ .East stW stE
        hWH h2 hgE hcin hcocc (by rw [hW2]; exact List.mem_cons_self c st.visited)
        (hW3 _ _ hctag) hW1
      cases h3 : neighbor_step pixels size τ c (decide (c.y > 0))
          ⟨c.x, c.y - 1⟩ .North stE with
      | none => rw [h3] at hres; cases hres
      | some stN =>
        rw [h3] at hres
        simp only [] at hres
        obtain ⟨hN1, hN2, hN3, hN4⟩ := neighbor_step_winv pixels size τ c _ _ .North stE stN
          hWH h3 hgN hcin hcocc
          (by rw [hE2, hW2]; exact List.mem_cons_self c st.visited)
          (hE3 _ _ (hW3 _ _ hctag)) hE1
        obtain ⟨hS1, hS2, hS3, hS4⟩ := neighbor_step_winv pixels size τ c _ _ .South stN st4
          hWH hres hgS hcin hcocc
          (by rw [hN2, hE2, hW2]; exact List.mem_cons_self c st.visited)
          (hN3 _ _ (hE3 _ _ (hW3 _ _ hctag))) hN1
        have hvis4 : st4.visited = c :: st.visited := by
          rw [hS2, hN2, hE2, hW2]
        have hmono : ∀ k t, st.objects.getD k none = some t →
            st4.objects.getD k none = some t :=
          fun k t h => hS3 _ _ (hN3 _ _ (hE3 _ _ (hW3 _ _ h)))
        have hct4 : objAt size.x st4 c = some τ := hmono _ _ hctag
        have pW : decide (c.x > 0) = true → occAt pixels size.x ⟨c.x - 1, c.y⟩ →
            objAt size.x st4 ⟨c.x - 1, c.y⟩ = some τ :=
          fun hg ho => hS3 _ _ (hN3 _ _ (hE3 _ _ (hW4 hg ho)))
        have pE : decide (c.x < size.x - 1) = true → occAt pixels size.x ⟨c.x + 1, c.y⟩ →
            objAt size.x st4 ⟨c.x + 1, c.y⟩ = some τ :=
          fun hg ho => hS3 _ _ (hN3 _ _ (hE4 hg ho))
        have pN : decide (c.y > 0) = true → occAt pixels size.x ⟨c.x, c.y - 1⟩ →
            objAt size.x st4 ⟨c.x, c.y - 1⟩ = some τ :=
          fun hg ho => hS3 _ _ (hN4 hg ho)
        have pS : decide (c.y < size.y - 1) = true → occAt pixels size.x ⟨c.x, c.y + 1⟩ →
            objAt size.x st4 ⟨c.x, c.y + 1⟩ = some τ := hS4
        obtain ⟨hlen4, hstk4, hvisI4, htag4, hclo4, hconn4, hbnd4⟩ := hS1
        have hcloc : ∀ d, adjacent c d → inGrid size d → occAt pixels size.x d →
            objAt size.x st4 d = some τ := by
          intro d hadj hdin hdocc
          obtain ⟨hdx, hdy⟩ := hdin
          rcases hadj with ⟨ha1, ha2 | ha2⟩ | ⟨ha1, ha2 | ha2⟩
          · -- north neighbor
            have hd : d = ⟨c.x, c.y - 1⟩ := uvec2_ext d c.x (c.y - 1)
              (by omega) (by omega)
            rw [hd]
            exact pN (decide_eq_true (by omega)) (hd ▸ hdocc)
          · -- south neighbor
            have hd : d = ⟨c.x, c.y + 1⟩ := uvec2_ext d c.x (c.y + 1)
              (by omega) (by omega)
            rw [hd]
            exact pS (decide_eq_true (by omega)) (hd ▸ hdocc)
          · -- west neighbor
            have hd : d = ⟨c.x - 1, c.y⟩ := uvec2_ext d (c.x - 1) c.y
              (by omega) (by omega)
            rw [hd]
            exact pW (decide_eq_true (by omega)) (hd ▸ hdocc)
          · -- east neighbor
            have hd : d = ⟨c.x + 1, c.y⟩ := uvec2_ext d (c.x + 1) c.y
              (by omega) (by omega)
            rw [hd]
            exact pE (decide_eq_true (by omega)) (hd ▸ hdocc)
        refine ⟨⟨hlen4, hstk4, hvisI4, htag4, ?_, hconn4, hbnd4⟩, hvis4, hmono⟩
        intro v hv d hadj hdin hdocc
        by_cases hvc : v = c
        · rw [hvc] at hadj ⊢
          rw [hct4, hcloc d hadj hdin hdocc]
        · exact hclo4 v hv hvc d hadj hdin hdocc

/-- The while-let loop of the flood fill preserves the run invariant,
drains the stack, and never drops a tag. -/
theorem fill_loop_runinv (pixels : List Bool) (size : UVec2) (τ : ℕ)
    (hWH : size.x * size.y = pixels.length) :
    ∀ (fuel : ℕ) (st st' : FillState),
      fill_loop pixels size τ fuel st = .ok st' →
      FillRunInv size pixels τ st →
      FillRunInv size pixels τ st' ∧ st'.stack = [] ∧
        (∀ k t, st.objects.getD k none = some t →
          st'.objects.getD k none = some t) := by
  intro fuel
  induction fuel with
  | zero =>
    intro st st' hres hinv
    rw [fill_loop] at hres
    cases hstk : st.stack with
    | nil =>
      rw [hstk] at hres
      simp only [] at hres
      injection hres with hres
      rw [← hres]
      exact ⟨hinv, hstk, fun k t h => h⟩
    | cons c rest =>
      rw [hstk] at hres
      simp only [] at hres
      cases hres
  | succ f ih =>
    intro st st' hres hinv
    rw [fill_loop] at hres
    cases hstk : st.stack with
    | nil =>
      rw [hstk] at hres
      simp only [] at hres
      injection hres with hres
      rw [← hres]
      exact ⟨hinv, hstk, fun k t h => h⟩
    | cons c rest =>
      rw [hstk] at hres
      simp only [] at hres
      cases hfs : fill_step pixels size τ c {st with stack := rest} with
      | none => rw [hfs] at hres; cases hres
      | some st1 =>
        rw [hfs] at hres
        obtain ⟨hlen, hstkI, hvisI, htagI, hcloI, hconnI, hbndI⟩ := hinv
        obtain ⟨hc1, hc2, hc3⟩ := hstkI c (by rw [hstk]; exact List.mem_cons_self c rest)
        obtain ⟨hinv1, hvis1, hmono1⟩ := fill_step_runinv pixels size τ c
          {st with stack := rest} st1 hWH hfs hc1 hc2 hc3 hlen
          (fun v hv => hstkI v (by rw [hstk]; exact List.mem_cons_of_mem c hv))
          hvisI
          (fun v hvin hvt => by
            rcases htagI v hvin hvt with h | h
            · exact Or.inl h
            · rw [hstk] at h
              rcases List.mem_cons.mp h with h | h
              · exact Or.inr (Or.inl h)
              · exact Or.inr (Or.inr h))
          hcloI hconnI hbndI
        obtain ⟨hinv2, hstk2, hmono2⟩ := ih st1 st' hres hinv1
        exact ⟨hinv2, hstk2, fun k t h => hmono2 _ _ (hmono1 _ _ h)⟩

/-- The outer enumerate loop of from_pixels preserves the inter-run
invariant, never drops a tag, and leaves every processed occupied index
tagged. -/
theorem outer_loop_taginv (fuel : ℕ) (size : UVec2) (pixels : List Bool)
    (hWH : size.x * size.y = pixels.length) :
    ∀ (is : List ℕ) (cnt : ℕ) (st st' : FillState) (cnt' : ℕ),
      outer_loop fuel size pixels is cnt st = .ok (st', cnt') →
      FillOuterInv size pixels cnt st →
      (∀ i ∈ is, i < pixels.length) →
      FillOuterInv size pixels cnt' st' ∧
        (∀ k t, st.objects.getD k none = some t →
          st'.objects.getD k none = some t) ∧
        (∀ i ∈ is, pixels.get? i = some true →
          st'.objects.getD i none ≠ none) := by
  intro is
  induction is with
  | nil =>
    intro cnt st st' cnt' hres hinv hbound
    simp only [outer_loop] at hres
    injection hres with hres
    injection hres with h1 h2
    rw [← h1, ← h2]
    exact ⟨hinv, fun k t h => h, fun i hi => absurd hi (List.not_mem_nil i)⟩
  | cons i rest ih =>
    intro cnt st st' cnt' hres hinv hbound
    simp only [outer_loop] at hres
    cases hp : pixels.get? i with
    | none => rw [hp] at hres; cases hres
    | some px =>
      rw [hp] at hres
      simp only [] at hres
      cases px with
      | false =>
        simp only [Bool.not_false, if_pos] at hres
        obtain ⟨hi1, hi2, hi3⟩ := ih cnt st st' cnt' hres hinv
          (fun j hj => hbound j (List.mem_cons_of_mem i hj))
        refine ⟨hi1, hi2, ?_⟩
        intro j hj hocc
        rcases List.mem_cons.mp hj with hj | hj
        · rw [hj, hp] at hocc
          exact absurd hocc (by simp)
        · exact hi3 j hj hocc
      | true =>
        simp only [Bool.not_true, Bool.false_eq_true, if_false] at hres
        cases ho : st.objects.get? i with
        | none => rw [ho] at hres; cases hres
        | some oi =>
          rw [ho] at hres
          cases oi with
          | some t0 =>
            simp only [] at hres
            obtain ⟨hi1, hi2, hi3⟩ := ih cnt st st' cnt' hres hinv
              (fun j hj => hbound j (List.mem_cons_of_mem i hj))
            refine ⟨hi1, hi2, ?_⟩
            intro j hj hocc
            rcases List.mem_cons.mp hj with hj | hj
            · rw [hj]
              have hg : st.objects.getD i none = some t0 := by
                simp [List.getD_eq_getElem?_getD, ← List.get?_eq_getElem?, ho]
              rw [hi2 i t0 hg]
              simp
            · exact hi3 j hj hocc
          | none =>
            simp only [] at hres
            by_cases hw : size.x = 0
            · rw [if_pos hw] at hres
              cases hres
            · rw [if_neg hw] at hres
              obtain ⟨hoblen, hstk0, hvisI, htagI, hcloI, hconnI, hbndI⟩ := hinv
              have hilen : i < pixels.length := hbound i (List.mem_cons_self i rest)
              have hwpos : 0 < size.x := Nat.pos_of_ne_zero hw
              have hlocin : inGrid size (⟨i % size.x, i / size.x⟩ : UVec2) := by
                constructor
                · exact Nat.mod_lt i hwpos
                · show i / size.x < size.y
                  rw [Nat.div_lt_iff_lt_mul hwpos]
                  calc i < pixels.length := hilen
                    _ = size.x * size.y := hWH.symm
                    _ = size.y * size.x := Nat.mul_comm _ _
              have hcell : cellIdx size.x (⟨i % size.x, i / size.x⟩ : UVec2) = i := by
                show i % size.x + i / size.x * size.x = i
                exact Nat.mod_add_div' i size.x
              have hlocc : occAt pixels size.x (⟨i % size.x, i / size.x⟩ : UVec2) := by
                rw [occAt, hcell]
                exact hp
              have hinone : st.objects.getD i none = none := by
                simp [List.getD_eq_getElem?_getD, ← List.get?_eq_getElem?, ho]
              have hseedlen : i < st.objects.length := by
                rw [hoblen]
                exact hilen
              have hpres : ∀ v, objAt size.x st v ≠ none →
                  (st.objects.set i (some cnt)).getD (cellIdx size.x v) none =
                    objAt size.x st v := by
                intro v hv
                by_cases hk : i = cellIdx size.x v
                · exfalso
                  apply hv
                  show st.objects.getD (cellIdx size.x v) none = none
                  rw [← hk]
                  exact hinone
                · exact getD_set_ne _ _ _ _ _ hk
              have hseedtag : (st.objects.set i (some cnt)).getD
                  (cellIdx size.x (⟨i % size.x, i / size.x⟩ : UVec2)) none = some cnt := by
                rw [hcell]
                exact getD_set_eq _ _ _ _ hseedlen
              have hrun : FillRunInv size pixels cnt
                  {st with objects := st.objects.set i (some cnt),
                           stack := (⟨i % size.x, i / size.x⟩ : UVec2) :: st.stack} := by
                refine ⟨?_, ?_, ?_, ?_, ?_, ?_, ?_⟩
                · show (st.objects.set i (some cnt)).length = pixels.length
                  rw [List.length_set]
                  exact hoblen
                · intro v hv
                  rcases List.mem_cons.mp hv with hv | hv
                  · rw [hv]
                    exact ⟨hlocin, hlocc, hseedtag⟩
                  · rw [hstk0] at hv
                    exact absurd hv (List.not_mem_nil v)
                · intro v hv
                  obtain ⟨h1, h2, h3⟩ := hvisI v hv
                  refine ⟨h1, h2, ?_⟩
                  show (st.objects.set i (some cnt)).getD (cellIdx size.x v) none ≠ none
                  rw [hpres v h3]
                  exact h3
                · intro v hvin hvt
                  by_cases hk : cellIdx size.x v = i
                  · right
                    have hveq : v = ⟨i % size.x, i / size.x⟩ :=
                      cellIdx_inj size v _ hvin hlocin (by rw [hk, hcell])
                    rw [hveq]
                    exact List.mem_cons_self _ _
                  · left
                    apply htagI v hvin
                    intro hc
                    apply hvt
                    show (st.objects.set i (some cnt)).getD (cellIdx size.x v) none = none
                    rw [getD_set_ne _ _ _ _ _ (fun he => hk he.symm)]
                    exact hc
                · intro v hv d hadj hdin hdocc
                  obtain ⟨h1, h2, h3⟩ := hvisI v hv
                  show (st.objects.set i (some cnt)).getD (cellIdx size.x d) none =
                    (st.objects.set i (some cnt)).getD (cellIdx size.x v) none
                  rw [hpres v h3]
                  by_cases hdk : cellIdx size.x d = i
                  · exfalso
                    have hdeq : d = ⟨i % size.x, i / size.x⟩ :=
                      cellIdx_inj size d _ hdin hlocin (by rw [hdk, hcell])
                    have hcl := hcloI v hv d hadj hdin hdocc
                    apply h3
                    rw [← hcl]
                    show st.objects.getD (cellIdx size.x d) none = none
                    rw [hdk]
                    exact hinone
                  · rw [getD_set_ne _ _ _ _ _ (fun he => hdk he.symm)]
                    exact hcloI v hv d hadj hdin hdocc
                · intro a b hain hbin hat heq
                  have heqG : (st.objects.set i (some cnt)).getD (cellIdx size.x a)
                      none = (st.objects.set i (some cnt)).getD (cellIdx size.x b)
                      none := heq
                  have hatG : (st.objects.set i (some cnt)).getD (cellIdx size.x a)
                      none ≠ none := hat
                  by_cases hak : cellIdx size.x a = i
                  · have haeq : a = ⟨i % size.x, i / size.x⟩ :=
                      cellIdx_inj size a _ hain hlocin (by rw [hak, hcell])
                    by_cases hbk : cellIdx size.x b = i
                    · have hbeq : b = ⟨i % size.x, i / size.x⟩ :=
                        cellIdx_inj size b _ hbin hlocin (by rw [hbk, hcell])
                      rw [haeq, hbeq]
                      exact Conn.refl _ hlocin hlocc
                    · exfalso
                      have hbt : objAt size.x st b = some cnt := by
                        have : (st.objects.set i (some cnt)).getD (cellIdx size.x b)
                            none = some cnt := by
                          rw [← heqG]
                          show (st.objects.set i (some cnt)).getD (cellIdx size.x a)
                            none = some cnt
                          rw [hak]
                          exact getD_set_eq _ _ _ _ hseedlen
                        rw [getD_set_ne _ _ _ _ _ (fun he => hbk he.symm)] at this
                        exact this
                      have hblen : cellIdx size.x b < st.objects.length := by
                        by_contra hc
                        rw [objAt, List.getD_eq_default _ _ (by omega)] at hbt
                        cases hbt
                      have hmem : some cnt ∈ st.objects := by
                        have := getD_mem st.objects (cellIdx size.x b) none hblen
                        rw [objAt] at hbt
                        rw [hbt] at this
                        exact this
                      exact absurd (hbndI cnt hmem) (lt_irrefl cnt)
                  · by_cases hbk : cellIdx size.x b = i
                    · exfalso
                      have hat2 : objAt size.x st a = some cnt := by
                        have h5 : (st.objects.set i (some cnt)).getD (cellIdx size.x a)
                            none = some cnt := by
                          rw [heqG]
                          show (st.objects.set i (some cnt)).getD (cellIdx size.x b)
                            none = some cnt
                          rw [hbk]
                          exact getD_set_eq _ _ _ _ hseedlen
                        rw [getD_set_ne _ _ _ _ _ (fun he => hak he.symm)] at h5
                        exact h5
                      have halen : cellIdx size.x a < st.objects.length := by
                        by_contra hc
                        rw [objAt, List.getD_eq_default _ _ (by omega)] at hat2
                        cases hat2
                      have hmem : some cnt ∈ st.objects := by
                        have := getD_mem st.objects (cellIdx size.x a) none halen
                        rw [objAt] at hat2
                        rw [hat2] at this
                        exact this
                      exact absurd (hbndI cnt hmem) (lt_irrefl cnt)
                    · have ha5 : objAt size.x st a ≠ none := by
                        intro hc
                        apply hatG
                        rw [getD_set_ne _ _ _ _ _ (fun he => hak he.symm)]
                        exact hc
                      apply hconnI a b hain hbin ha5
                      show st.objects.getD (cellIdx size.x a) none =
                        st.objects.getD (cellIdx size.x b) none
                      rw [← getD_set_ne st.objects i (cellIdx size.x a) (some cnt) none
                          (fun he => hak he.symm),
                        ← getD_set_ne st.objects i (cellIdx size.x b) (some cnt) none
                          (fun he => hbk he.symm)]
                      exact heqG
                · intro t hm
                  have hm2 : some t ∈ st.objects ∨ some t = some cnt :=
                    List.mem_or_eq_of_mem_set hm
                  rcases hm2 with hm2 | hm2
                  · exact Nat.le_of_lt (hbndI t hm2)
                  · injection hm2 with hm2
                    exact Nat.le_of_eq hm2
              cases hfl : fill_loop pixels size cnt fuel
                  {st with objects := st.objects.set i (some cnt),
                           stack := (⟨i % size.x, i / size.x⟩ : UVec2) :: st.stack} with
              | panic => rw [hfl] at hres; cases hres
              | fuelOut => rw [hfl] at hres; cases hres
              | ok st2 =>
                rw [hfl] at hres
                simp only [] at hres
                obtain ⟨hinv2, hstk2, hmono2⟩ :=
                  fill_loop_runinv pixels size cnt hWH fuel _ st2 hfl hrun
                obtain ⟨hlen2, hstkI2, hvisI2, htagI2, hcloI2, hconnI2, hbndI2⟩ := hinv2
                have houter2 : FillOuterInv size pixels (cnt + 1) st2 := by
                  refine ⟨hlen2, hstk2, hvisI2, ?_, hcloI2, hconnI2, ?_⟩
                  · intro v hvin hvt
                    rcases htagI2 v hvin hvt with h | h
                    · exact h
                    · rw [hstk2] at h
                      exact absurd h (List.not_mem_nil v)
                  · intro t hm
                    exact Nat.lt_succ_of_le (hbndI2 t hm)
                obtain ⟨hi1, hi2, hi3⟩ := ih (cnt + 1) st2 st' cnt' hres houter2
                  (fun j hj => hbound j (List.mem_cons_of_mem i hj))
                have hmonoSeed : ∀ k t, st.objects.getD k none = some t →
                    (st.objects.set i (some cnt)).getD k none = some t := by
                  intro k t hkt
                  by_cases hk : i = k
                  · rw [← hk] at hkt
                    rw [hinone] at hkt
                    cases hkt
                  · rw [getD_set_ne _ _ _ _ _ hk]
                    exact hkt
                refine ⟨hi1, ?_, ?_⟩
                · intro k t hkt
                  exact hi2 k t (hmono2 k t (hmonoSeed k t hkt))
                · intro j hj hocc
                  rcases List.mem_cons.mp hj with hj | hj
                  · rw [hj]
                    have h7 : (st.objects.set i (some cnt)).getD i none = some cnt :=
                      getD_set_eq _ _ _ _ hseedlen
                    rw [hi2 i cnt (hmono2 i cnt h7)]
                    simp
                  · exact hi3 j hj hocc

/-- C7: after a successful OccupancyMap::from_pixels run, the flood fill
has tagged every occupied in-grid cell, and two occupied in-grid cells
carry one common tag exactly when they are 4-connected through occupied
cells - one distinct tag per maximal 4-connected occupied region. -/
theorem c7_flood_fill_components (fuel : ℕ) (size : UVec2) (pixels : List Bool)
    (m : OccupancyMap)
    (hrun : OccupancyMap.from_pixels fuel size pixels = .ok (.ok m)) :
    (∀ c, inGrid size c → occAt pixels size.x c →
      ∃ t, m.objects.get? (cellIdx size.x c) = some (some t)) ∧
    (∀ c d, inGrid size c → occAt pixels size.x c → inGrid size d →
      occAt pixels size.x d →
      ((∃ t, m.objects.get? (cellIdx size.x c) = some (some t) ∧
             m.objects.get? (cellIdx size.x d) = some (some t)) ↔
        Conn size pixels c d)) := by
  simp only [OccupancyMap.from_pixels] at hrun
  cases hout : outer_loop fuel size pixels (List.range pixels.length) 0
      ⟨List.replicate pixels.length none, [], [], []⟩ with
  | panic => rw [hout] at hrun; cases hrun
  | fuelOut => rw [hout] at hrun; cases hrun
  | ok pr =>
    obtain ⟨stF, cntF⟩ := pr
    rw [hout] at hrun
    simp only [] at hrun
    by_cases hsz : size.x * size.y = pixels.length
    · rw [if_pos hsz] at hrun
      injection hrun with hrun
      injection hrun with hrun
      have hmobj : m.objects = stF.objects := by rw [← hrun]
      have hinit : FillOuterInv size pixels 0
          ⟨List.replicate pixels.length none, [], [], []⟩ := by
        refine ⟨by simp, rfl, ?_, ?_, ?_, ?_, ?_⟩
        · intro v hv
          exact absurd hv (List.not_mem_nil v)
        · intro v hvin hvt
          exfalso
          apply hvt
          show (List.replicate pixels.length (none : Option ObjectTag)).getD _ none = none
          exact getD_replicate_none _ _
        · intro v hv
          exact absurd hv (List.not_mem_nil v)
        · intro a b hain hbin hat heq
          exfalso
          apply hat
          show (List.replicate pixels.length (none : Option ObjectTag)).getD _ none = none
          exact getD_replicate_none _ _
        · intro t hm
          have h2 := List.eq_of_mem_replicate hm
          cases h2
      obtain ⟨hO, hmono, hproc⟩ := outer_loop_taginv fuel size pixels hsz
        (List.range pixels.length) 0 _ stF cntF hout hinit
        (fun i hi => List.mem_range.mp hi)
      obtain ⟨hlenF, hstkF, hvisF, htagF, hcloF, hconnF, hbndF⟩ := hO
      have parta : ∀ c, inGrid size c → occAt pixels size.x c →
          ∃ t, stF.objects.get? (cellIdx size.x c) = some (some t) := by
        intro c hcin hcocc
        have hik : cellIdx size.x c < pixels.length := by
          rw [← hsz]
          exact cellIdx_lt size c hcin
        have hne := hproc (cellIdx size.x c) (List.mem_range.mpr hik) hcocc
        cases hv : stF.objects.getD (cellIdx size.x c) none with
        | none => exact absurd hv hne
        | some t => exact ⟨t, get?_of_getD_ne _ _ _ _ hv (by simp)⟩
      have hstep : ∀ c d, Conn size pixels c d →
          objAt size.x stF c = objAt size.x stF d := by
        intro c d hconn2
        induction hconn2 with
        | refl h1 h2 => rfl
        | step b c2 hab hadj h1 h2 ihx =>
          rw [ihx]
          have hbend := (conn_ends size pixels _ b hab).2
          obtain ⟨t, hbt⟩ := parta b hbend.1 hbend.2
          have hbt2 : objAt size.x stF b ≠ none := by
            rw [objAt]
            simp [List.getD_eq_getElem?_getD, ← List.get?_eq_getElem?, hbt]
          have hbvis := htagF b hbend.1 hbt2
          exact (hcloF b hbvis c2 hadj h1 h2).symm
      constructor
      · intro c h1 h2
        rw [hmobj]
        exact parta c h1 h2
      · intro c d h1 h2 h3 h4
        rw [hmobj]
        constructor
        · rintro ⟨t, ht1, ht2⟩
          apply hconnF c d h1 h3
          · show stF.objects.getD (cellIdx size.x c) none ≠ none
            simp [List.getD_eq_getElem?_getD, ← List.get?_eq_getElem?, ht1]
          · show stF.objects.getD (cellIdx size.x c) none =
              stF.objects.getD (cellIdx size.x d) none
            simp [List.getD_eq_getElem?_getD, ← List.get?_eq_getElem?, ht1, ht2]
        · intro hcd
          obtain ⟨t, ht⟩ := parta c h1 h2
          refine ⟨t, ht, ?_⟩
          have hgg := hstep c d hcd
          rw [objAt, objAt] at hgg
          have hc5 : stF.objects.getD (cellIdx size.x c) none = some t := by
            simp [List.getD_eq_getElem?_getD, ← List.get?_eq_getElem?, ht]
          exact get?_of_getD_ne _ _ _ _ (hgg.symm.trans hc5) (by simp)
    · rw [if_neg hsz] at hrun
      injection hrun with hrun
      cases hrun

unseal Rat.add Rat.mul Rat.inv Rat.sub in
/-- Witness for c7_flood_fill_components on the successful 1 by 2 build
with one occupied cell. -/
theorem c7_flood_fill_components_witness :
    (∀ c, inGrid ⟨1, 2⟩ c → occAt [false, true] 1 c →
      ∃ t, oneSegMap.objects.get? (cellIdx 1 c) = some (some t)) ∧
    (∀ c d, inGrid ⟨1, 2⟩ c → occAt [false, true] 1 c → inGrid ⟨1, 2⟩ d →
      occAt [false, true] 1 d →
      ((∃ t, oneSegMap.objects.get? (cellIdx 1 c) = some (some t) ∧
             oneSegMap.objects.get? (cellIdx 1 d) = some (some t)) ↔
        Conn ⟨1, 2⟩ [false, true] c d)) :=
  c7_flood_fill_components 20 ⟨1, 2⟩ [false, true] oneSegMap (by decide)

/-- Sanity check mirroring the first case of the test_collisions unit test in
src/sim/src/math.rs. -/
theorem math_test_case_one :
    intersect_ray_box ⟨.fin 0, .fin 0⟩ ⟨.fin 0, .fin 1⟩
      ⟨⟨.fin (-1/4), .fin (1/4)⟩, ⟨.fin (1/4), .fin (3/4)⟩⟩ = some (.fin (1/4)) := by
  norm_num [intersect_ray_box, Vec2.add, Vec2.sub, Vec2.div, Vec2.mul, Vec2.sdiv,
    Vec2.vabs, EFloat.add, EFloat.sub, EFloat.mul, EFloat.div, EFloat.neg,
    EFloat.abs, EFloat.fmax, EFloat.fmin, EFloat.flt, EFloat.fle, EPSILON]

/-- Sanity check mirroring the third case of the test_collisions unit test in
src/sim/src/math.rs: a box entirely behind the origin is not hit. -/
theorem math_test_case_three :
    intersect_ray_box ⟨.fin 0, .fin 0⟩ ⟨.fin 0, .fin 1⟩
      ⟨⟨.fin (-1/4), .fin (-3/4)⟩, ⟨.fin (1/4), .fin (-1/4)⟩⟩ = none := by
  norm_num [intersect_ray_box, Vec2.add, Vec2.sub, Vec2.div, Vec2.mul, Vec2.sdiv,
    Vec2.vabs, EFloat.add, EFloat.sub, EFloat.mul, EFloat.div, EFloat.neg,
    EFloat.abs, EFloat.fmax, EFloat.fmin, EFloat.flt, EFloat.fle, EPSILON]

end SlamStage
